import Mathlib

/-!
# A shallow embedding of `src/lib/orchestrator.ts` (lazy-bones)

The orchestrator is a lazy, memoized, cost-adaptive dependency resolver.  This
file embeds its data model and operations and proves the behavioural claims
made about it.

Modelling decisions, stated once here:

* Machine numbers: JS numbers that hold durations and averages are modelled as
  exact rationals (`ℚ`); durations are naturals (milliseconds from
  `Date.now()`).  `Number.EPSILON = 2⁻⁵²` and
  `Number.MAX_SAFE_INTEGER = 2⁵³ − 1` are taken exactly.
* Asynchrony: bluebird promises over a single-threaded host are modelled by a
  sequential semantics in which every producer settles before control returns
  (promise continuations run immediately).  Under that semantics the net
  effect of `cache[key] = fetchResult(...).catch(err => { delete cache[key];
  throw err })` is: insert the entry on fulfilment, leave no entry behind on
  rejection, and let a synchronous throw escape before any assignment.
* Nontermination: the source has no cycle detection; a cyclic spec overflows
  the stack or never settles.  All recursive operations take fuel and return a
  `div` outcome when it runs out.
* A producer (`FetchFn`) carries its JS function identity as `id` (the key of
  the `stats : Map<Function, Stats>`), its declared arity (`fn.length`), the
  wall-clock duration an invocation takes, and its semantic outcome `run`.
  All three calling conventions (zero-arg, deps, deps+callback) are funnelled
  through `Promise.fromCallback`/`Promise.try` into one settled promise in the
  source; `run` is that settled outcome.
-/

abbrev Key := String
abbrev Value := Nat

/-- The dependency mapping handed to a producer (the `depsObj` assembled in
`fetchDependentResult`). -/
abbrev DepMap := List (Key × Value)

/-- A producer function: JS identity, declared arity, semantic outcome, and
invocation duration. -/
structure FetchFn where
  id : Nat
  arity : Nat
  run : DepMap → Except String Value
  dur : Nat

/-- One normalized path: `{ dependencies, fn }`. -/
structure NormalizedPath where
  dependencies : List Key
  fn : FetchFn

/-- `NormalizedSpec<T, V>`: a list of paths for one key. -/
structure NSpec where
  paths : List NormalizedPath

/-- `NormalizedStateSpec<T>`: key → normalized entry.  A JS object, modelled as
an association list with first-match lookup. -/
abbrev NStateSpec := List (Key × NSpec)

/-- Per-producer cost statistics. -/
structure Stats where
  avg : ℚ
  count : Nat
deriving DecidableEq

/-- `Map<Function, Stats>` keyed by producer identity; `Map.set` is modelled by
consing (first match wins on lookup). -/
abbrev StatsMap := List (Nat × Stats)

/-- The per-scope cache.  In the source it maps keys to promises; in this
sequential semantics every surviving entry is a fulfilled value. -/
abbrev Cache := List (Key × Value)

/-- One `timing` event as emitted on success. -/
structure TimingEvent where
  name : Option Key
  dependencies : List Key
  requestStart : Nat
  waitDuration : Nat
  fetchStart : Nat
  fetchDuration : Nat
  totalDuration : Nat
deriving DecidableEq

/-- The mutable world an engine call threads: scope cache, shared stats table,
emitted timing events (most recent first), and the wall clock. -/
structure St where
  cache : Cache
  stats : StatsMap
  events : List TimingEvent
  time : Nat
deriving DecidableEq, Inhabited

instance {ε α : Type} [DecidableEq ε] [DecidableEq α] : DecidableEq (Except ε α) := fun a b =>
  match a, b with
  | .ok x, .ok y =>
    if h : x = y then .isTrue (by rw [h]) else .isFalse (by intro hc; cases hc; exact h rfl)
  | .error x, .error y =>
    if h : x = y then .isTrue (by rw [h]) else .isFalse (by intro hc; cases hc; exact h rfl)
  | .ok _, .error _ => .isFalse (by intro hc; cases hc)
  | .error _, .ok _ => .isFalse (by intro hc; cases hc)

/-- Outcome of an engine call: `div` models nontermination, `thrown` a
synchronous JS exception escaping the call, `settled` a settled promise. -/
inductive Res (α : Type) where
  | div : Res α
  | thrown : String → St → Res α
  | settled : Except String α → St → Res α
deriving DecidableEq

abbrev RRes := Res Value

/-- The state carried by a non-divergent outcome. -/
def outSt {α : Type} : Res α → Option St
  | .div => none
  | .thrown _ st => some st
  | .settled _ st => some st

/-! Batteries marks `Rat.add`, `Rat.mul` and `Rat.inv` `@[irreducible]`, so
terms built from them do not evaluate inside `decide`/`rfl`.  The embedding
therefore computes with `mkRat`-based operations — proved below to be exactly
rational `+`, `* n` and `/ n` — so that every definition stays executable on
concrete inputs while theorems can reason with the ordinary field operations. -/

/-- Kernel-reducible rational addition. -/
def qadd (a b : Rat) : Rat := mkRat (a.num * b.den + b.num * a.den) (a.den * b.den)

/-- Kernel-reducible multiplication of a rational by a natural. -/
def qmulNat (a : Rat) (n : Nat) : Rat := mkRat (a.num * n) a.den

/-- Kernel-reducible division of a rational by a natural. -/
def qdivNat (a : Rat) (n : Nat) : Rat := mkRat a.num (a.den * n)

theorem qadd_eq (a b : Rat) : qadd a b = a + b := by
  rw [qadd, Rat.mkRat_eq_div]
  conv_rhs => rw [← Rat.num_div_den a, ← Rat.num_div_den b]
  have ha : ((a.den : Int) : ℚ) ≠ 0 := by
    exact_mod_cast (Int.ofNat_ne_zero.mpr a.den_nz)
  have hb : ((b.den : Int) : ℚ) ≠ 0 := by
    exact_mod_cast (Int.ofNat_ne_zero.mpr b.den_nz)
  push_cast
  field_simp

theorem qmulNat_eq (a : Rat) (n : Nat) : qmulNat a n = a * n := by
  rw [qmulNat, Rat.mkRat_eq_div]
  conv_rhs => rw [← Rat.num_div_den a]
  have ha : ((a.den : Int) : ℚ) ≠ 0 := by
    exact_mod_cast (Int.ofNat_ne_zero.mpr a.den_nz)
  push_cast
  field_simp

theorem qdivNat_eq (a : Rat) (n : Nat) : qdivNat a n = a / n := by
  rw [qdivNat, Rat.mkRat_eq_div]
  conv_rhs => rw [← Rat.num_div_den a]
  have ha : ((a.den : Int) : ℚ) ≠ 0 := by
    exact_mod_cast (Int.ofNat_ne_zero.mpr a.den_nz)
  push_cast
  by_cases hn : (n : ℚ) = 0
  · simp [hn]
  · field_simp

def Number.EPSILON : Rat := mkRat 1 (2 ^ 52)

def Number.MAX_SAFE_INTEGER : Rat := mkRat (2 ^ 53 - 1) 1

theorem Number.EPSILON_eq : Number.EPSILON = 1 / 2 ^ 52 := by
  rw [Number.EPSILON, Rat.mkRat_eq_div]
  norm_num

theorem Number.MAX_SAFE_INTEGER_eq : Number.MAX_SAFE_INTEGER = 2 ^ 53 - 1 := by
  rw [Number.MAX_SAFE_INTEGER, Rat.mkRat_eq_div]
  norm_num

/-- `(stats && stats.avg) || Number.EPSILON` from `getCost`: a missing stats
entry, or a falsy (zero) recorded average, falls back to `Number.EPSILON`. -/
def selfCost (stats : StatsMap) (fn : FetchFn) : Rat :=
  match stats.lookup fn.id with
  | none => Number.EPSILON
  | some s => if s.avg = 0 then Number.EPSILON else s.avg

/-- `recordCost(fn, amount)`: running-average update of the shared stats. -/
def recordCost (stats : StatsMap) (fn : FetchFn) (amount : Rat) : StatsMap :=
  let priorStats := (stats.lookup fn.id).getD { count := 0, avg := 0 }
  let newCount := priorStats.count + 1
  (fn.id, { count := newCount
            avg := qdivNat (qadd (qmulNat priorStats.avg priorStats.count) amount) newCount })
    :: stats

/-- The running-average update written with ordinary rational arithmetic:
`(avg * count + amount) / (count + 1)`. -/
theorem recordCost_avg (stats : StatsMap) (fn : FetchFn) (amount : Rat) :
    recordCost stats fn amount
      = (fn.id,
          { count := ((stats.lookup fn.id).getD { count := 0, avg := 0 }).count + 1
            avg := (((stats.lookup fn.id).getD { count := 0, avg := 0 }).avg
                      * ((stats.lookup fn.id).getD { count := 0, avg := 0 }).count + amount)
                    / (((stats.lookup fn.id).getD { count := 0, avg := 0 }).count + 1) })
        :: stats := by
  rw [recordCost]
  simp only [qdivNat_eq, qadd_eq, qmulNat_eq]
  push_cast
  rfl

/-- Outcome of a cost computation (`getCost` and friends return plain numbers
or throw synchronously, and can fail to terminate on a cyclic spec). -/
inductive CRes (α : Type) where
  | div : CRes α
  | thrown : String → CRes α
  | ok : α → CRes α
deriving DecidableEq

/-- A `{ cost, path }` pair as produced by `getCostedPaths`. -/
structure CostedPath where
  cost : Rat
  path : NormalizedPath

/-- `costedPaths.reduce((champ, challenger) => challenger.cost < champ.cost ?
challenger : champ)`: the fold keeps the earliest path of minimal cost. -/
def champion (c : CostedPath) (cs : List CostedPath) : CostedPath :=
  cs.foldl (fun champ challenger => if challenger.cost < champ.cost then challenger else champ) c

/-- Thrown when `this.spec[key]` is `undefined` and `.paths` is read. -/
def undefinedSpecMsg : String := "TypeError: cannot read paths of undefined"

/-- Thrown by `[].reduce(f)` with no initial value. -/
def reduceEmptyMsg : String := "TypeError: reduce of empty array with no initial value"

/-- Thrown when `costedPaths[0]` is `undefined` and `.path` is read. -/
def headUndefinedMsg : String := "TypeError: cannot read path of undefined"

mutual

/-- `getCost({dependencies, fn}, cache)`: self cost plus the per-dependency
sum.  The `reduce` over dependencies is split out as `depsCost`; addition over
`ℚ` is reassociated (the source folds left from 0).  Fuel is spent on every
recursive step so the mutual recursion is structural; `cost_fuel_mono` below
shows results are stable once the fuel suffices. -/
def getCost (spec : NStateSpec) : Nat → StatsMap → NormalizedPath → Cache → CRes Rat
  | 0, _, _, _ => .div
  | fuel+1, stats, path, cache =>
    match depsCost spec fuel stats path.dependencies cache with
    | .div => .div
    | .thrown m => .thrown m
    | .ok s => .ok (qadd (selfCost stats path.fn) s)

/-- `dependencies.reduce((sum, dep) => ..., 0)`: a dependency already in the
cache contributes 0; otherwise the minimum cost among its own costed paths,
computed recursively. -/
def depsCost (spec : NStateSpec) : Nat → StatsMap → List Key → Cache → CRes Rat
  | 0, _, _, _ => .div
  | _+1, _, [], _ => .ok 0
  | fuel+1, stats, dep :: ds, cache =>
    let c : CRes Rat :=
      if (cache.lookup dep).isSome then .ok 0
      else
        match getCostedPaths spec fuel stats dep cache with
        | .div => .div
        | .thrown m => .thrown m
        | .ok [] => .thrown reduceEmptyMsg
        | .ok (c0 :: cs) => .ok (champion c0 cs).cost
    match c with
    | .div => .div
    | .thrown m => .thrown m
    | .ok q =>
      match depsCost spec fuel stats ds cache with
      | .div => .div
      | .thrown m => .thrown m
      | .ok s => .ok (qadd q s)

/-- `getCostedPaths(key, cache)`: `this.spec[key].paths.map(path => ({ cost,
path }))`.  Reading `.paths` of a missing entry throws synchronously. -/
def getCostedPaths (spec : NStateSpec) : Nat → StatsMap → Key → Cache → CRes (List CostedPath)
  | 0, _, _, _ => .div
  | fuel+1, stats, key, cache =>
    match spec.lookup key with
    | none => .thrown undefinedSpecMsg
    | some ns => costPaths spec fuel stats ns.paths cache

/-- The `map` inside `getCostedPaths`, evaluated left to right; the first
synchronous throw escapes. -/
def costPaths (spec : NStateSpec) : Nat → StatsMap → List NormalizedPath → Cache → CRes (List CostedPath)
  | 0, _, _, _ => .div
  | _+1, _, [], _ => .ok []
  | fuel+1, stats, p :: ps, cache =>
    match getCost spec fuel stats p cache with
    | .div => .div
    | .thrown m => .thrown m
    | .ok c =>
      match costPaths spec fuel stats ps cache with
      | .div => .div
      | .thrown m => .thrown m
      | .ok rest => .ok ({ cost := c, path := p } :: rest)

end

/-- Insert one costed path into an already-sorted list, before the first
strictly more expensive element: equal-cost elements already present stay in
front only if they arrived earlier in the original list order. -/
def insertByCost (c : CostedPath) : List CostedPath → List CostedPath
  | [] => [c]
  | d :: ds => if d.cost < c.cost then d :: insertByCost c ds else c :: d :: ds

/-- `costedPaths.sort(({cost: a}, {cost: b}) => a - b)`: ES2019 `Array.sort`
is stable; modelled by a stable insertion sort on the cost field. -/
def sortByCost : List CostedPath → List CostedPath
  | [] => []
  | c :: cs => insertByCost c (sortByCost cs)

/-- `getPrioritizedPaths(key, cache)`: cost every path, then sort ascending. -/
def getPrioritizedPaths (spec : NStateSpec) (fuel : Nat) (stats : StatsMap)
    (key : Key) (cache : Cache) : CRes (List CostedPath) :=
  match getCostedPaths spec fuel stats key cache with
  | .div => .div
  | .thrown m => .thrown m
  | .ok l => .ok (sortByCost l)

/-- The `depsObj` built by zipping declared dependency names with the settled
values (the source folds `Object.assign`). -/
def zipDeps (dependencies : List Key) (values : List Value) : DepMap :=
  dependencies.zip values

/-- `execute(fn, deps)`: invoke the producer (all calling conventions settle
into one promise), then record its cost — the elapsed duration on success,
`Number.MAX_SAFE_INTEGER` on failure.  Never throws synchronously. -/
def execute (fn : FetchFn) (deps : DepMap) (st : St) : Except String Value × St :=
  let r := fn.run deps
  let st1 : St := { st with time := st.time + fn.dur }
  match r with
  | .ok v => (.ok v, { st1 with stats := recordCost st1.stats fn (fn.dur : Rat) })
  | .error e => (.error e, { st1 with stats := recordCost st1.stats fn Number.MAX_SAFE_INTEGER })

/-- A path attempt made from inside a `.catch` handler: a synchronous throw in
the handler becomes a rejection of the derived promise. -/
def toAttempt : RRes → RRes
  | .thrown m st => .settled (.error m) st
  | r => r

mutual

/-- `resolve(key, cache)`: cache hit returns the cached future unchanged; a
key with no spec entry rejects immediately; otherwise fetch and cache. -/
def resolve (spec : NStateSpec) : Nat → Key → St → RRes
  | 0, _, _ => .div
  | fuel+1, key, st =>
    match st.cache.lookup key with
    | some v => .settled (.ok v) st
    | none =>
      match spec.lookup key with
      | none => .settled (.error (key ++ " is not defined in the data source")) st
      | some _ => fetchAndCache spec fuel key st

/-- `cache[key] = this.fetchResult(key, cache).catch(err => { delete
cache[key]; throw err })`, by net effect at settle time: insert on fulfilment,
no surviving entry on rejection, and a synchronous throw escapes before the
assignment happens. -/
def fetchAndCache (spec : NStateSpec) : Nat → Key → St → RRes
  | 0, _, _ => .div
  | fuel+1, key, st =>
    match fetchResult spec fuel key st with
    | .div => .div
    | .thrown m st1 => .thrown m st1
    | .settled (.ok v) st1 => .settled (.ok v) { st1 with cache := (key, v) :: st1.cache }
    | .settled (.error e) st1 => .settled (.error e) st1

/-- `fetchResult(key, cache)`: prioritize the paths, attempt the cheapest
directly, and fold the rest into a `.catch` chain. -/
def fetchResult (spec : NStateSpec) : Nat → Key → St → RRes
  | 0, _, _ => .div
  | fuel+1, key, st =>
    match getPrioritizedPaths spec fuel st.stats key st.cache with
    | .div => .div
    | .thrown m => .thrown m st
    | .ok [] => .thrown headUndefinedMsg st
    | .ok (c0 :: rest) => chainPaths spec fuel key rest (resolvePath spec fuel key c0.path st)

/-- The `reduce((chain, {path}) => chain.catch(() => resolvePath(...)))`: a
fulfilled chain passes every later `.catch` untouched; a rejected chain runs
the next attempt (whose own synchronous throw rejects the chain). -/
def chainPaths (spec : NStateSpec) : Nat → Key → List CostedPath → RRes → RRes
  | 0, _, _, _ => .div
  | _+1, _, [], chain => chain
  | fuel+1, key, c :: cs, chain =>
    match chain with
    | .div => .div
    | .thrown m st => .thrown m st
    | .settled (.ok v) st => .settled (.ok v) st
    | .settled (.error _) st =>
      chainPaths spec fuel key cs (toAttempt (resolvePath spec fuel key c.path st))

/-- `resolvePath(cache, key, { dependencies, fn })`. -/
def resolvePath (spec : NStateSpec) : Nat → Key → NormalizedPath → St → RRes
  | 0, _, _, _ => .div
  | fuel+1, key, path, st =>
    fetchDependentResult spec fuel (some key) path.dependencies path.fn st

/-- `fetchDependentResult(cache, name, dependencies, fn)`: fan out the
dependencies (zero dependencies invoke the producer directly), then invoke the
producer, and on success emit a `timing` event. -/
def fetchDependentResult (spec : NStateSpec) :
    Nat → Option Key → List Key → FetchFn → St → RRes
  | 0, _, _, _, _ => .div
  | fuel+1, name, dependencies, fn, st =>
    let requestStart := st.time
    match dependencies with
    | [] =>
      match execute fn [] st with
      | (.ok v, st2) =>
        .settled (.ok v)
          { st2 with events :=
              { name := name, dependencies := dependencies, requestStart := requestStart
                waitDuration := 0, fetchStart := requestStart
                fetchDuration := st2.time - requestStart
                totalDuration := st2.time - requestStart } :: st2.events }
      | (.error e, st2) => .settled (.error e) st2
    | _ :: _ =>
      match resolveDeps spec fuel dependencies st with
      | .div => .div
      | .thrown m st1 => .thrown m st1
      | .settled (.error e) st1 => .settled (.error e) st1
      | .settled (.ok values) st1 =>
        let fetchStart := st1.time
        match execute fn (zipDeps dependencies values) st1 with
        | (.ok v, st2) =>
          .settled (.ok v)
            { st2 with events :=
                { name := name, dependencies := dependencies, requestStart := requestStart
                  waitDuration := fetchStart - requestStart, fetchStart := fetchStart
                  fetchDuration := st2.time - fetchStart
                  totalDuration := st2.time - requestStart } :: st2.events }
        | (.error e, st2) => .settled (.error e) st2

/-- `Promise.all(dependencies.map(dep => this.resolve(dep, cache)))`: every
resolve's synchronous part runs left to right (a synchronous throw stops the
map), and the join rejects with the first rejection while keeping the state
changes of every resolve. -/
def resolveDeps (spec : NStateSpec) : Nat → List Key → St → Res (List Value)
  | 0, _, _ => .div
  | _+1, [], st => .settled (.ok []) st
  | fuel+1, d :: ds, st =>
    match resolve spec fuel d st with
    | .div => .div
    | .thrown m st1 => .thrown m st1
    | .settled r st1 =>
      match resolveDeps spec fuel ds st1 with
      | .div => .div
      | .thrown m st2 => .thrown m st2
      | .settled rs st2 =>
        match r, rs with
        | .ok v, .ok vs => .settled (.ok (v :: vs)) st2
        | .error e, _ => .settled (.error e) st2
        | .ok _, .error e => .settled (.error e) st2

end

/-- Raw specification values: a function, a key name, or an array. -/
inductive RawVal where
  | func : FetchFn → RawVal
  | str : Key → RawVal
  | arr : List RawVal → RawVal

/-- The unchecked cast `<Array<keyof T>>(depFn.slice(0, -1))`: every non-key
element is coerced to some key name at use sites. -/
def rawToKey : RawVal → Key
  | .str k => k
  | .func _ => "function"
  | .arr _ => "array"

def invalidSpecMsg : String := "Invalid dependent function specification."

/-- Thrown when a non-array reaches `depFn.slice`. -/
def sliceMsg : String := "TypeError: depFn.slice is not a function"

/-- `normalizeDependentFn(depFn)`: dependencies are all but the last element,
the last element must be a function, else a descriptive error is thrown. -/
def normalizeDependentFn : RawVal → Except String NormalizedPath
  | .arr items =>
    match items.getLast? with
    | some (.func f) => .ok { dependencies := items.dropLast.map rawToKey, fn := f }
    | _ => .error invalidSpecMsg
  | .str _ => .error invalidSpecMsg
  | .func _ => .error sliceMsg

/-- Wrapping of a bare function entry: `fn.length ? ((_, cb?) => fn(cb)) :
((_) => fn())`.  The wrapper is a fresh function closed over `fn`; it keeps
`fn`'s identity for stats purposes and changes only the declared arity. -/
def wrapBare (f : FetchFn) : FetchFn :=
  if f.arity ≠ 0 then { f with arity := 2 } else { f with arity := 1 }

/-- `spec[0] instanceof Array`. -/
def headIsArr : RawVal → Bool
  | .arr (.arr _ :: _) => true
  | _ => false

/-- `normalizeSpec(spec)`: a bare function is a single zero-dependency path; an
array whose first element is an array is a list of alternative dependent-fn
paths; anything else is a single dependent-fn path. -/
def normalizeSpec (v : RawVal) : Except String NSpec :=
  match v with
  | .func f => .ok { paths := [{ dependencies := [], fn := wrapBare f }] }
  | v =>
    if headIsArr v then
      match v with
      | .arr items => (items.mapM normalizeDependentFn).map (fun ps => { paths := ps })
      | _ => .error invalidSpecMsg
    else
      (normalizeDependentFn v).map (fun p => { paths := [p] })

/-- The constructor's `mapObject(spec, key => this.normalizeSpec(spec[key]))`,
with normalization errors surfacing at construction time. -/
def normalizeRawSpec (raw : List (Key × RawVal)) : Except String NStateSpec :=
  raw.mapM (fun kv => (normalizeSpec kv.2).map (fun ns => (kv.1, ns)))

/-- `Orchestration(orchestrator, initialData)`: the scope cache pre-populated
with a resolved future per seed value. -/
def Orchestration (initialData : List (Key × Value)) : Cache := initialData

/-- `getInstance(values)`: a fresh scope over the shared stats table. -/
def getInstance (initialData : List (Key × Value)) (stats : StatsMap) (time : Nat) : St :=
  { cache := Orchestration initialData, stats := stats, events := [], time := time }

/-- Execution count recorded for producer identity `i`. -/
def countOf (stats : StatsMap) (i : Nat) : Nat :=
  ((stats.lookup i).getD { avg := 0, count := 0 }).count

/-- The state of a settled outcome (used to name concrete result states). -/
def settledSt : RRes → St
  | .settled _ st => st
  | _ => default

/-! ## Basic unfolding and structural lemmas -/

theorem resolve_cached {spec : NStateSpec} {fuel : Nat} {key : Key} {st : St} {v : Value}
    (h : st.cache.lookup key = some v) :
    resolve spec (fuel + 1) key st = .settled (.ok v) st := by
  simp [resolve, h]

theorem resolve_undefined {spec : NStateSpec} {fuel : Nat} {key : Key} {st : St}
    (h1 : st.cache.lookup key = none) (h2 : spec.lookup key = none) :
    resolve spec (fuel + 1) key st
      = .settled (.error (key ++ " is not defined in the data source")) st := by
  simp [resolve, h1, h2]

theorem resolve_success_lookup {spec : NStateSpec} {fuel : Nat} {key : Key} {st st' : St}
    {v : Value} (h : resolve spec fuel key st = .settled (.ok v) st') :
    st'.cache.lookup key = some v := by
  match fuel with
  | 0 => simp [resolve] at h
  | f + 1 =>
    rw [resolve] at h
    cases hc : st.cache.lookup key with
    | some w =>
      simp only [hc, Res.settled.injEq, Except.ok.injEq] at h
      obtain ⟨rfl, rfl⟩ := h
      exact hc
    | none =>
      simp only [hc] at h
      cases hs : spec.lookup key with
      | none => simp only [hs] at h; simp at h
      | some ns =>
        simp only [hs] at h
        match f with
        | 0 => simp [fetchAndCache] at h
        | g + 1 =>
          rw [fetchAndCache] at h
          cases hf : fetchResult spec g key st with
          | div => simp only [hf] at h; simp at h
          | thrown m st1 => simp only [hf] at h; simp at h
          | settled r st1 =>
            simp only [hf] at h
            cases r with
            | ok w =>
              simp only [Res.settled.injEq, Except.ok.injEq] at h
              obtain ⟨rfl, rfl⟩ := h
              simp [List.lookup]
            | error e => simp at h

/-! ## The stable insertion sort used by `getPrioritizedPaths` -/

theorem insertByCost_perm (c : CostedPath) (l : List CostedPath) :
    (insertByCost c l).Perm (c :: l) := by
  induction l with
  | nil => simp [insertByCost]
  | cons d ds ih =>
    rw [insertByCost]
    by_cases h : d.cost < c.cost
    · rw [if_pos h]
      exact (ih.cons d).trans (List.Perm.swap c d ds)
    · rw [if_neg h]

theorem sortByCost_perm (l : List CostedPath) : (sortByCost l).Perm l := by
  induction l with
  | nil => simp [sortByCost]
  | cons c cs ih =>
    rw [sortByCost]
    exact (insertByCost_perm c (sortByCost cs)).trans (ih.cons c)

theorem mem_insertByCost {x c : CostedPath} {l : List CostedPath} :
    x ∈ insertByCost c l ↔ x = c ∨ x ∈ l := by
  constructor
  · intro h
    have := (insertByCost_perm c l).mem_iff.mp h
    simpa using this
  · intro h
    apply (insertByCost_perm c l).mem_iff.mpr
    simpa using h

theorem mem_sortByCost {x : CostedPath} {l : List CostedPath} :
    x ∈ sortByCost l ↔ x ∈ l := (sortByCost_perm l).mem_iff

theorem insertByCost_pairwise {c : CostedPath} {l : List CostedPath}
    (h : l.Pairwise (fun a b => a.cost ≤ b.cost)) :
    (insertByCost c l).Pairwise (fun a b => a.cost ≤ b.cost) := by
  induction l with
  | nil => simp [insertByCost]
  | cons d ds ih =>
    rw [insertByCost]
    rw [List.pairwise_cons] at h
    by_cases hlt : d.cost < c.cost
    · rw [if_pos hlt]
      rw [List.pairwise_cons]
      refine ⟨?_, ih h.2⟩
      intro x hx
      rcases mem_insertByCost.mp hx with rfl | hx
      · exact le_of_lt hlt
      · exact h.1 x hx
    · rw [if_neg hlt]
      rw [List.pairwise_cons]
      refine ⟨?_, List.pairwise_cons.mpr h⟩
      intro x hx
      rcases List.mem_cons.mp hx with rfl | hx
      · exact le_of_not_lt hlt
      · exact le_trans (le_of_not_lt hlt) (h.1 x hx)

theorem sortByCost_pairwise (l : List CostedPath) :
    (sortByCost l).Pairwise (fun a b => a.cost ≤ b.cost) := by
  induction l with
  | nil => simp [sortByCost]
  | cons c cs ih => rw [sortByCost]; exact insertByCost_pairwise ih

theorem insertByCost_filter_eq {c : CostedPath} {l : List CostedPath} {q : Rat}
    (hq : c.cost = q) :
    (insertByCost c l).filter (fun d => d.cost == q) = c :: l.filter (fun d => d.cost == q) := by
  induction l with
  | nil => simp [insertByCost, List.filter_cons, hq]
  | cons d ds ih =>
    rw [insertByCost]
    by_cases hlt : d.cost < c.cost
    · rw [if_pos hlt]
      have hne : ¬ d.cost = q := by
        intro hdq
        rw [hdq, ← hq] at hlt
        exact lt_irrefl _ hlt
      simp only [List.filter_cons, beq_iff_eq]
      rw [if_neg hne, ih, if_neg hne]
    · rw [if_neg hlt]
      simp only [List.filter_cons, beq_iff_eq]
      rw [if_pos hq]

theorem insertByCost_filter_ne {c : CostedPath} {l : List CostedPath} {q : Rat}
    (hq : c.cost ≠ q) :
    (insertByCost c l).filter (fun d => d.cost == q) = l.filter (fun d => d.cost == q) := by
  induction l with
  | nil => simp [insertByCost, List.filter_cons, hq]
  | cons d ds ih =>
    rw [insertByCost]
    by_cases hlt : d.cost < c.cost
    · rw [if_pos hlt]
      simp only [List.filter_cons]
      by_cases hd : (d.cost == q) = true
      · rw [if_pos hd, if_pos hd, ih]
      · rw [if_neg hd, if_neg hd, ih]
    · rw [if_neg hlt]
      simp only [List.filter_cons, beq_iff_eq]
      rw [if_neg hq]

theorem sortByCost_filter (l : List CostedPath) (q : Rat) :
    (sortByCost l).filter (fun d => d.cost == q) = l.filter (fun d => d.cost == q) := by
  induction l with
  | nil => simp [sortByCost]
  | cons c cs ih =>
    rw [sortByCost]
    by_cases hq : c.cost = q
    · rw [insertByCost_filter_eq hq, ih, List.filter_cons]
      simp only [beq_iff_eq]
      rw [if_pos hq]
    · rw [insertByCost_filter_ne hq, ih, List.filter_cons]
      simp only [beq_iff_eq]
      rw [if_neg hq]

/-! ## Which paths the cost machinery reports -/

theorem costPaths_mem {spec : NStateSpec} {fuel : Nat} {stats : StatsMap}
    {ps : List NormalizedPath} {cache : Cache} {l : List CostedPath}
    (h : costPaths spec fuel stats ps cache = .ok l) :
    ∀ c ∈ l, c.path ∈ ps := by
  induction fuel generalizing ps l with
  | zero => simp [costPaths] at h
  | succ f ih =>
    match ps with
    | [] =>
      rw [costPaths] at h
      obtain rfl := CRes.ok.inj h
      intro c hc
      simp at hc
    | p :: ps =>
      rw [costPaths] at h
      cases hg : getCost spec f stats p cache with
      | div => rw [hg] at h; simp at h
      | thrown m => rw [hg] at h; simp at h
      | ok cq =>
        rw [hg] at h
        cases hr : costPaths spec f stats ps cache with
        | div => rw [hr] at h; simp at h
        | thrown m => rw [hr] at h; simp at h
        | ok rest =>
          rw [hr] at h
          obtain rfl := CRes.ok.inj h
          intro c hc
          rcases hc with _ | hc
          · exact List.mem_cons_self p ps
          · exact List.mem_cons_of_mem p (ih hr c (by assumption))

theorem getCostedPaths_mem {spec : NStateSpec} {fuel : Nat} {stats : StatsMap}
    {key : Key} {cache : Cache} {l : List CostedPath}
    (h : getCostedPaths spec fuel stats key cache = .ok l) :
    ∃ ns, spec.lookup key = some ns ∧ ∀ c ∈ l, c.path ∈ ns.paths := by
  match fuel with
  | 0 => simp [getCostedPaths] at h
  | f + 1 =>
    rw [getCostedPaths] at h
    cases hs : spec.lookup key with
    | none => rw [hs] at h; simp at h
    | some ns =>
      rw [hs] at h
      exact ⟨ns, rfl, costPaths_mem h⟩

theorem getPrioritizedPaths_ok {spec : NStateSpec} {fuel : Nat} {stats : StatsMap}
    {key : Key} {cache : Cache} {l : List CostedPath}
    (h : getCostedPaths spec fuel stats key cache = .ok l) :
    getPrioritizedPaths spec fuel stats key cache = .ok (sortByCost l) := by
  rw [getPrioritizedPaths, h]

theorem getPrioritizedPaths_mem {spec : NStateSpec} {fuel : Nat} {stats : StatsMap}
    {key : Key} {cache : Cache} {l : List CostedPath}
    (h : getPrioritizedPaths spec fuel stats key cache = .ok l) :
    ∃ ns, spec.lookup key = some ns ∧ ∀ c ∈ l, c.path ∈ ns.paths := by
  rw [getPrioritizedPaths] at h
  cases hg : getCostedPaths spec fuel stats key cache with
  | div => rw [hg] at h; simp at h
  | thrown m => rw [hg] at h; simp at h
  | ok l0 =>
    rw [hg] at h
    obtain rfl := CRes.ok.inj h
    obtain ⟨ns, hns, hmem⟩ := getCostedPaths_mem hg
    exact ⟨ns, hns, fun c hc => hmem c (mem_sortByCost.mp hc)⟩

/-! ## Cache monotonicity: surviving cache entries are never removed or replaced -/

/-- Every entry of `st`'s cache survives, with the same value, into `st'`. -/
def cacheLe (st st' : St) : Prop :=
  ∀ k v, st.cache.lookup k = some v → st'.cache.lookup k = some v

theorem cacheLe_refl (st : St) : cacheLe st st := fun _ _ h => h

theorem cacheLe_trans {a b c : St} (h1 : cacheLe a b) (h2 : cacheLe b c) : cacheLe a c :=
  fun k v h => h2 k v (h1 k v h)

theorem execute_cache (fn : FetchFn) (deps : DepMap) (st : St) :
    ((execute fn deps st).2).cache = st.cache := by
  cases hr : fn.run deps <;> simp [execute, hr]

theorem execute_events (fn : FetchFn) (deps : DepMap) (st : St) :
    ((execute fn deps st).2).events = st.events := by
  cases hr : fn.run deps <;> simp [execute, hr]

theorem chainPaths_div (spec : NStateSpec) (fuel : Nat) (key : Key) (cs : List CostedPath) :
    chainPaths spec fuel key cs .div = .div := by
  match fuel, cs with
  | 0, _ => rw [chainPaths]
  | f + 1, [] => rw [chainPaths]
  | f + 1, c :: cs => rw [chainPaths]

theorem chainPaths_nil (spec : NStateSpec) (f : Nat) (key : Key) (acc : RRes) :
    chainPaths spec (f + 1) key [] acc = acc := rfl

theorem chainPaths_fulfilled (spec : NStateSpec) (f : Nat) (key : Key) (c : CostedPath)
    (cs : List CostedPath) (v : Value) (st : St) :
    chainPaths spec (f + 1) key (c :: cs) (.settled (.ok v) st) = .settled (.ok v) st := rfl

theorem chainPaths_thrown (spec : NStateSpec) (f : Nat) (key : Key) (c : CostedPath)
    (cs : List CostedPath) (m : String) (st : St) :
    chainPaths spec (f + 1) key (c :: cs) (.thrown m st) = .thrown m st := rfl

theorem chainPaths_rejected (spec : NStateSpec) (f : Nat) (key : Key) (c : CostedPath)
    (cs : List CostedPath) (e : String) (st : St) :
    chainPaths spec (f + 1) key (c :: cs) (.settled (.error e) st)
      = chainPaths spec f key cs (toAttempt (resolvePath spec f key c.path st)) := rfl

theorem engine_cacheLe (spec : NStateSpec) : ∀ fuel : Nat,
    (∀ key st st', outSt (resolve spec fuel key st) = some st' → cacheLe st st') ∧
    (∀ key st st', st.cache.lookup key = none →
      outSt (fetchAndCache spec fuel key st) = some st' → cacheLe st st') ∧
    (∀ key st st', outSt (fetchResult spec fuel key st) = some st' → cacheLe st st') ∧
    (∀ key cs acc st0 st', outSt acc = some st0 →
      outSt (chainPaths spec fuel key cs acc) = some st' → cacheLe st0 st') ∧
    (∀ key p st st', outSt (resolvePath spec fuel key p st) = some st' → cacheLe st st') ∧
    (∀ name deps fn st st',
      outSt (fetchDependentResult spec fuel name deps fn st) = some st' → cacheLe st st') ∧
    (∀ ds st st', outSt (resolveDeps spec fuel ds st) = some st' → cacheLe st st') := by
  intro fuel
  induction fuel with
  | zero =>
    refine ⟨?_, ?_, ?_, ?_, ?_, ?_, ?_⟩
    · intro key st st' h; simp [resolve, outSt] at h
    · intro key st st' hn h; simp [fetchAndCache, outSt] at h
    · intro key st st' h; simp [fetchResult, outSt] at h
    · intro key cs acc st0 st' hacc h; simp [chainPaths, outSt] at h
    · intro key p st st' h; simp [resolvePath, outSt] at h
    · intro name deps fn st st' h; simp [fetchDependentResult, outSt] at h
    · intro ds st st' h; simp [resolveDeps, outSt] at h
  | succ f ih =>
    obtain ⟨ihRes, ihFAC, ihFR, ihCP, ihRP, ihFDR, ihRD⟩ := ih
    refine ⟨?_, ?_, ?_, ?_, ?_, ?_, ?_⟩
    · -- resolve
      intro key st st' h
      rw [resolve] at h
      cases hc : st.cache.lookup key with
      | some v =>
        simp only [hc, outSt, Option.some.injEq] at h
        exact h ▸ cacheLe_refl st
      | none =>
        simp only [hc] at h
        cases hs : spec.lookup key with
        | none =>
          simp only [hs, outSt, Option.some.injEq] at h
          exact h ▸ cacheLe_refl st
        | some ns =>
          simp only [hs] at h
          exact ihFAC key st st' hc h
    · -- fetchAndCache
      intro key st st' hn h
      rw [fetchAndCache] at h
      cases hf : fetchResult spec f key st with
      | div => simp [hf, outSt] at h
      | thrown m st1 =>
        simp only [hf, outSt, Option.some.injEq] at h
        exact h ▸ ihFR key st st1 (by rw [hf]; rfl)
      | settled r st1 =>
        simp only [hf] at h
        have hle : cacheLe st st1 := ihFR key st st1 (by rw [hf]; rfl)
        cases r with
        | ok v =>
          simp only [outSt, Option.some.injEq] at h
          subst h
          intro k v0 hk
          by_cases hkk : k = key
          · subst hkk; rw [hk] at hn; cases hn
          · have hb : (k == key) = false := beq_eq_false_iff_ne.mpr hkk
            simpa [List.lookup, hb] using hle k v0 hk
        | error e =>
          simp only [outSt, Option.some.injEq] at h
          exact h ▸ hle
    · -- fetchResult
      intro key st st' h
      rw [fetchResult] at h
      cases hg : getPrioritizedPaths spec f st.stats key st.cache with
      | div => simp [hg, outSt] at h
      | thrown m =>
        simp only [hg, outSt, Option.some.injEq] at h
        exact h ▸ cacheLe_refl st
      | ok l =>
        cases l with
        | nil =>
          simp only [hg, outSt, Option.some.injEq] at h
          exact h ▸ cacheLe_refl st
        | cons c0 rest =>
          simp only [hg, outSt] at h
          cases hr : resolvePath spec f key c0.path st with
          | div => rw [hr, chainPaths_div] at h; simp [outSt] at h
          | thrown m st0 =>
            rw [hr] at h
            have h1 : cacheLe st st0 := ihRP key c0.path st st0 (by rw [hr]; rfl)
            exact cacheLe_trans h1 (ihCP key rest (Res.thrown m st0) st0 st' rfl h)
          | settled r st0 =>
            rw [hr] at h
            have h1 : cacheLe st st0 := ihRP key c0.path st st0 (by rw [hr]; rfl)
            exact cacheLe_trans h1 (ihCP key rest (Res.settled r st0) st0 st' rfl h)
    · -- chainPaths
      intro key cs acc st0 st' hacc h
      cases cs with
      | nil =>
        rw [chainPaths_nil] at h
        rw [hacc] at h
        exact (Option.some.inj h) ▸ cacheLe_refl st0
      | cons c cs =>
        cases acc with
        | div => simp [outSt] at hacc
        | thrown m st1 =>
          obtain rfl : st0 = st1 := (Option.some.inj hacc).symm
          rw [chainPaths_thrown] at h
          simp only [outSt, Option.some.injEq] at h
          exact h ▸ cacheLe_refl st0
        | settled r st1 =>
          obtain rfl : st0 = st1 := (Option.some.inj hacc).symm
          cases r with
          | ok v =>
            rw [chainPaths_fulfilled] at h
            simp only [outSt, Option.some.injEq] at h
            exact h ▸ cacheLe_refl st0
          | error e =>
            rw [chainPaths_rejected] at h
            cases hr : resolvePath spec f key c.path st0 with
            | div => rw [hr] at h; rw [show toAttempt .div = .div from rfl, chainPaths_div] at h; simp [outSt] at h
            | thrown m st2 =>
              rw [hr] at h
              have h1 : cacheLe st0 st2 := ihRP key c.path st0 st2 (by rw [hr]; rfl)
              exact cacheLe_trans h1
                (ihCP key cs (toAttempt (Res.thrown m st2)) st2 st' rfl h)
            | settled r2 st2 =>
              rw [hr] at h
              have h1 : cacheLe st0 st2 := ihRP key c.path st0 st2 (by rw [hr]; rfl)
              exact cacheLe_trans h1
                (ihCP key cs (toAttempt (Res.settled r2 st2)) st2 st' rfl h)
    · -- resolvePath
      intro key p st st' h
      rw [resolvePath] at h
      exact ihFDR (some key) p.dependencies p.fn st st' h
    · -- fetchDependentResult
      intro name deps fn st st' h
      cases deps with
      | nil =>
        rw [fetchDependentResult] at h
        cases hx : execute fn [] st with
        | mk r st2 =>
          have hcache : st2.cache = st.cache := by
            have := execute_cache fn [] st; rw [hx] at this; exact this
          rw [hx] at h
          cases r with
          | ok v =>
            simp only [outSt, Option.some.injEq] at h
            subst h
            intro k v0 hk
            simpa [hcache] using hk
          | error e =>
            simp only [outSt, Option.some.injEq] at h
            subst h
            intro k v0 hk
            simpa [hcache] using hk
      | cons d ds =>
        rw [fetchDependentResult] at h
        cases hrd : resolveDeps spec f (d :: ds) st with
        | div => rw [hrd] at h; simp [outSt] at h
        | thrown m st1 =>
          rw [hrd] at h
          simp only [outSt, Option.some.injEq] at h
          exact h ▸ ihRD (d :: ds) st st1 (by rw [hrd]; rfl)
        | settled rs st1 =>
          rw [hrd] at h
          have h1 : cacheLe st st1 := ihRD (d :: ds) st st1 (by rw [hrd]; rfl)
          cases rs with
          | error e =>
            simp only [outSt, Option.some.injEq] at h
            exact h ▸ h1
          | ok values =>
            simp only [outSt] at h
            cases hx : execute fn (zipDeps (d :: ds) values) st1 with
            | mk r st2 =>
              have hcache : st2.cache = st1.cache := by
                have := execute_cache fn (zipDeps (d :: ds) values) st1
                rw [hx] at this; exact this
              rw [hx] at h
              cases r with
              | ok v =>
                simp only [outSt, Option.some.injEq] at h
                subst h
                intro k v0 hk
                simpa [hcache] using h1 k v0 hk
              | error e =>
                simp only [outSt, Option.some.injEq] at h
                subst h
                intro k v0 hk
                simpa [hcache] using h1 k v0 hk
    · -- resolveDeps
      intro ds st st' h
      cases ds with
      | nil =>
        rw [resolveDeps] at h
        simp only [outSt, Option.some.injEq] at h
        exact h ▸ cacheLe_refl st
      | cons d ds =>
        rw [resolveDeps] at h
        cases h1 : resolve spec f d st with
        | div => rw [h1] at h; simp [outSt] at h
        | thrown m st1 =>
          rw [h1] at h
          simp only [outSt, Option.some.injEq] at h
          exact h ▸ ihRes d st st1 (by rw [h1]; rfl)
        | settled r st1 =>
          rw [h1] at h
          simp only [outSt] at h
          have hle1 : cacheLe st st1 := ihRes d st st1 (by rw [h1]; rfl)
          cases h2 : resolveDeps spec f ds st1 with
          | div => rw [h2] at h; simp [outSt] at h
          | thrown m st2 =>
            rw [h2] at h
            simp only [outSt, Option.some.injEq] at h
            exact h ▸ cacheLe_trans hle1 (ihRD ds st1 st2 (by rw [h2]; rfl))
          | settled rs st2 =>
            rw [h2] at h
            have hle2 : cacheLe st1 st2 := ihRD ds st1 st2 (by rw [h2]; rfl)
            cases r with
            | ok v =>
              cases rs with
              | ok vs =>
                simp only [outSt, Option.some.injEq] at h
                exact h ▸ cacheLe_trans hle1 hle2
              | error e =>
                simp only [outSt, Option.some.injEq] at h
                exact h ▸ cacheLe_trans hle1 hle2
            | error e =>
              simp only [outSt, Option.some.injEq] at h
              exact h ▸ cacheLe_trans hle1 hle2

/-! ## Stats frame: producers belonging only to an already-cached key never run -/

theorem recordCost_lookup_ne (stats : StatsMap) (fn : FetchFn) (amount : Rat) {i : Nat}
    (h : fn.id ≠ i) : (recordCost stats fn amount).lookup i = stats.lookup i := by
  have hb : (i == fn.id) = false := beq_eq_false_iff_ne.mpr (Ne.symm h)
  simp [recordCost, List.lookup, hb]

theorem execute_stats_ne (fn : FetchFn) (deps : DepMap) (st : St) {i : Nat}
    (h : fn.id ≠ i) : ((execute fn deps st).2).stats.lookup i = st.stats.lookup i := by
  cases hr : fn.run deps <;> simp [execute, hr, recordCost_lookup_ne _ _ _ h]

theorem engine_statsFrame (spec : NStateSpec) (i : Nat) (a : Key)
    (hOnly : ∀ k ns p, spec.lookup k = some ns → p ∈ ns.paths → p.fn.id = i → k = a) :
    ∀ fuel : Nat,
    (∀ key st st', (st.cache.lookup a).isSome →
      outSt (resolve spec fuel key st) = some st' →
      st'.stats.lookup i = st.stats.lookup i) ∧
    (∀ key st st', (st.cache.lookup a).isSome → key ≠ a →
      outSt (fetchAndCache spec fuel key st) = some st' →
      st'.stats.lookup i = st.stats.lookup i) ∧
    (∀ key st st', (st.cache.lookup a).isSome →
      (∀ ns p, spec.lookup key = some ns → p ∈ ns.paths → p.fn.id ≠ i) →
      outSt (fetchResult spec fuel key st) = some st' →
      st'.stats.lookup i = st.stats.lookup i) ∧
    (∀ key cs acc st0 st', outSt acc = some st0 → (st0.cache.lookup a).isSome →
      (∀ c ∈ cs, c.path.fn.id ≠ i) →
      outSt (chainPaths spec fuel key cs acc) = some st' →
      st'.stats.lookup i = st0.stats.lookup i) ∧
    (∀ key p st st', (st.cache.lookup a).isSome → p.fn.id ≠ i →
      outSt (resolvePath spec fuel key p st) = some st' →
      st'.stats.lookup i = st.stats.lookup i) ∧
    (∀ name deps fn st st', (st.cache.lookup a).isSome → fn.id ≠ i →
      outSt (fetchDependentResult spec fuel name deps fn st) = some st' →
      st'.stats.lookup i = st.stats.lookup i) ∧
    (∀ ds st st', (st.cache.lookup a).isSome →
      outSt (resolveDeps spec fuel ds st) = some st' →
      st'.stats.lookup i = st.stats.lookup i) := by
  have keep : ∀ {s s' : St}, cacheLe s s' →
      (s.cache.lookup a).isSome → (s'.cache.lookup a).isSome := by
    intro s s' hle hs
    obtain ⟨va, hva⟩ := Option.isSome_iff_exists.mp hs
    exact Option.isSome_iff_exists.mpr ⟨va, hle a va hva⟩
  intro fuel
  induction fuel with
  | zero =>
    refine ⟨?_, ?_, ?_, ?_, ?_, ?_, ?_⟩
    · intro key st st' _ h; simp [resolve, outSt] at h
    · intro key st st' _ _ h; simp [fetchAndCache, outSt] at h
    · intro key st st' _ _ h; simp [fetchResult, outSt] at h
    · intro key cs acc st0 st' hacc _ _ h; simp [chainPaths, outSt] at h
    · intro key p st st' _ _ h; simp [resolvePath, outSt] at h
    · intro name deps fn st st' _ _ h; simp [fetchDependentResult, outSt] at h
    · intro ds st st' _ h; simp [resolveDeps, outSt] at h
  | succ f ih =>
    obtain ⟨ihRes, ihFAC, ihFR, ihCP, ihRP, ihFDR, ihRD⟩ := ih
    obtain ⟨mRes, mFAC, mFR, mCP, mRP, mFDR, mRD⟩ := engine_cacheLe spec f
    refine ⟨?_, ?_, ?_, ?_, ?_, ?_, ?_⟩
    · -- resolve
      intro key st st' hA h
      rw [resolve] at h
      cases hc : st.cache.lookup key with
      | some v =>
        simp only [hc, outSt, Option.some.injEq] at h
        exact h ▸ rfl
      | none =>
        simp only [hc] at h
        cases hs : spec.lookup key with
        | none =>
          simp only [hs, outSt, Option.some.injEq] at h
          exact h ▸ rfl
        | some ns =>
          simp only [hs] at h
          have hka : key ≠ a := by
            intro hk
            rw [hk] at hc
            rw [hc] at hA
            simp at hA
          exact ihFAC key st st' hA hka h
    · -- fetchAndCache
      intro key st st' hA hka h
      rw [fetchAndCache] at h
      have hP : ∀ ns p, spec.lookup key = some ns → p ∈ ns.paths → p.fn.id ≠ i :=
        fun ns p hk hp hid => hka (hOnly key ns p hk hp hid)
      cases hf : fetchResult spec f key st with
      | div => simp [hf, outSt] at h
      | thrown m st1 =>
        simp only [hf, outSt, Option.some.injEq] at h
        exact h ▸ ihFR key st st1 hA hP (by rw [hf]; rfl)
      | settled r st1 =>
        simp only [hf] at h
        have heq := ihFR key st st1 hA hP (by rw [hf]; rfl)
        cases r with
        | ok v =>
          simp only [outSt, Option.some.injEq] at h
          subst h
          exact heq
        | error e =>
          simp only [outSt, Option.some.injEq] at h
          exact h ▸ heq
    · -- fetchResult
      intro key st st' hA hP h
      rw [fetchResult] at h
      cases hg : getPrioritizedPaths spec f st.stats key st.cache with
      | div => simp [hg, outSt] at h
      | thrown m =>
        simp only [hg, outSt, Option.some.injEq] at h
        exact h ▸ rfl
      | ok l =>
        cases l with
        | nil =>
          simp only [hg, outSt, Option.some.injEq] at h
          exact h ▸ rfl
        | cons c0 rest =>
          simp only [hg, outSt] at h
          obtain ⟨ns, hns, hmem⟩ := getPrioritizedPaths_mem hg
          have hc0 : c0.path.fn.id ≠ i :=
            hP ns c0.path hns (hmem c0 (List.mem_cons_self c0 rest))
          have hrest : ∀ c ∈ rest, c.path.fn.id ≠ i :=
            fun c hc => hP ns c.path hns (hmem c (List.mem_cons_of_mem c0 hc))
          cases hr : resolvePath spec f key c0.path st with
          | div => rw [hr, chainPaths_div] at h; simp [outSt] at h
          | thrown m st0 =>
            rw [hr] at h
            have e1 := ihRP key c0.path st st0 hA hc0 (by rw [hr]; rfl)
            have hA0 := keep (mRP key c0.path st st0 (by rw [hr]; rfl)) hA
            have e2 := ihCP key rest (Res.thrown m st0) st0 st' rfl hA0 hrest h
            rw [e2, e1]
          | settled r st0 =>
            rw [hr] at h
            have e1 := ihRP key c0.path st st0 hA hc0 (by rw [hr]; rfl)
            have hA0 := keep (mRP key c0.path st st0 (by rw [hr]; rfl)) hA
            have e2 := ihCP key rest (Res.settled r st0) st0 st' rfl hA0 hrest h
            rw [e2, e1]
    · -- chainPaths
      intro key cs acc st0 st' hacc hA hcs h
      cases cs with
      | nil =>
        rw [chainPaths_nil] at h
        rw [hacc] at h
        exact (Option.some.inj h) ▸ rfl
      | cons c cs =>
        cases acc with
        | div => simp [outSt] at hacc
        | thrown m st1 =>
          obtain rfl : st0 = st1 := (Option.some.inj hacc).symm
          rw [chainPaths_thrown] at h
          simp only [outSt, Option.some.injEq] at h
          exact h ▸ rfl
        | settled r st1 =>
          obtain rfl : st0 = st1 := (Option.some.inj hacc).symm
          cases r with
          | ok v =>
            rw [chainPaths_fulfilled] at h
            simp only [outSt, Option.some.injEq] at h
            exact h ▸ rfl
          | error e =>
            rw [chainPaths_rejected] at h
            have hc0 : c.path.fn.id ≠ i := hcs c (List.mem_cons_self c cs)
            have hcs' : ∀ x ∈ cs, x.path.fn.id ≠ i :=
              fun x hx => hcs x (List.mem_cons_of_mem c hx)
            cases hr : resolvePath spec f key c.path st0 with
            | div =>
              rw [hr] at h
              rw [show toAttempt .div = .div from rfl, chainPaths_div] at h
              simp [outSt] at h
            | thrown m st2 =>
              rw [hr] at h
              have e1 := ihRP key c.path st0 st2 hA hc0 (by rw [hr]; rfl)
              have hA2 := keep (mRP key c.path st0 st2 (by rw [hr]; rfl)) hA
              have e2 := ihCP key cs (toAttempt (Res.thrown m st2)) st2 st' rfl hA2 hcs' h
              rw [e2, e1]
            | settled r2 st2 =>
              rw [hr] at h
              have e1 := ihRP key c.path st0 st2 hA hc0 (by rw [hr]; rfl)
              have hA2 := keep (mRP key c.path st0 st2 (by rw [hr]; rfl)) hA
              have e2 := ihCP key cs (toAttempt (Res.settled r2 st2)) st2 st' rfl hA2 hcs' h
              rw [e2, e1]
    · -- resolvePath
      intro key p st st' hA hid h
      rw [resolvePath] at h
      exact ihFDR (some key) p.dependencies p.fn st st' hA hid h
    · -- fetchDependentResult
      intro name deps fn st st' hA hid h
      cases deps with
      | nil =>
        rw [fetchDependentResult] at h
        cases hx : execute fn [] st with
        | mk r st2 =>
          have hst : st2.stats.lookup i = st.stats.lookup i := by
            have hh := execute_stats_ne fn [] st hid
            rw [hx] at hh
            exact hh
          rw [hx] at h
          cases r with
          | ok v =>
            simp only [outSt, Option.some.injEq] at h
            subst h
            exact hst
          | error e =>
            simp only [outSt, Option.some.injEq] at h
            exact h ▸ hst
      | cons d ds =>
        rw [fetchDependentResult] at h
        cases hrd : resolveDeps spec f (d :: ds) st with
        | div => rw [hrd] at h; simp [outSt] at h
        | thrown m st1 =>
          rw [hrd] at h
          simp only [outSt, Option.some.injEq] at h
          exact h ▸ ihRD (d :: ds) st st1 hA (by rw [hrd]; rfl)
        | settled rs st1 =>
          rw [hrd] at h
          have e1 := ihRD (d :: ds) st st1 hA (by rw [hrd]; rfl)
          cases rs with
          | error e =>
            simp only [outSt, Option.some.injEq] at h
            exact h ▸ e1
          | ok values =>
            simp only [outSt] at h
            cases hx : execute fn (zipDeps (d :: ds) values) st1 with
            | mk r st2 =>
              have hst : st2.stats.lookup i = st1.stats.lookup i := by
                have hh := execute_stats_ne fn (zipDeps (d :: ds) values) st1 hid
                rw [hx] at hh
                exact hh
              rw [hx] at h
              cases r with
              | ok v =>
                simp only [outSt, Option.some.injEq] at h
                subst h
                exact hst.trans e1
              | error e =>
                simp only [outSt, Option.some.injEq] at h
                exact h ▸ (hst.trans e1)
    · -- resolveDeps
      intro ds st st' hA h
      cases ds with
      | nil =>
        rw [resolveDeps] at h
        simp only [outSt, Option.some.injEq] at h
        exact h ▸ rfl
      | cons d ds =>
        rw [resolveDeps] at h
        cases h1 : resolve spec f d st with
        | div => rw [h1] at h; simp [outSt] at h
        | thrown m st1 =>
          rw [h1] at h
          simp only [outSt, Option.some.injEq] at h
          exact h ▸ ihRes d st st1 hA (by rw [h1]; rfl)
        | settled r st1 =>
          rw [h1] at h
          simp only [outSt] at h
          have e1 := ihRes d st st1 hA (by rw [h1]; rfl)
          have hA1 := keep (mRes d st st1 (by rw [h1]; rfl)) hA
          cases h2 : resolveDeps spec f ds st1 with
          | div => rw [h2] at h; simp [outSt] at h
          | thrown m st2 =>
            rw [h2] at h
            simp only [outSt, Option.some.injEq] at h
            exact h ▸ ((ihRD ds st1 st2 hA1 (by rw [h2]; rfl)).trans e1)
          | settled rs st2 =>
            rw [h2] at h
            have e2 := ihRD ds st1 st2 hA1 (by rw [h2]; rfl)
            cases r with
            | ok v =>
              cases rs with
              | ok vs =>
                simp only [outSt, Option.some.injEq] at h
                exact h ▸ (e2.trans e1)
              | error e =>
                simp only [outSt, Option.some.injEq] at h
                exact h ▸ (e2.trans e1)
            | error e =>
              simp only [outSt, Option.some.injEq] at h
              exact h ▸ (e2.trans e1)

/-! ## No-insert frame: resolving keys drawn from a dependency-closed set that
excludes `key0` can never create a cache entry for `key0`; hence `key0` itself
is cached only by its own successful resolution.  For an acyclic spec the set
of keys transitively reachable from `key0`'s dependencies is such a set, so
the frame applies to every key that is not its own transitive dependency —
regardless of which other keys depend on it. -/

theorem engine_noInsertS (spec : NStateSpec) (key0 : Key) (S : Key → Prop)
    (hClosed : ∀ k ns p d, S k → spec.lookup k = some ns → p ∈ ns.paths →
      d ∈ p.dependencies → S d)
    (hKey : ¬ S key0) :
    ∀ fuel : Nat,
    (∀ key st st', S key → st.cache.lookup key0 = none →
      outSt (resolve spec fuel key st) = some st' → st'.cache.lookup key0 = none) ∧
    (∀ key st st', S key → st.cache.lookup key0 = none →
      outSt (fetchAndCache spec fuel key st) = some st' → st'.cache.lookup key0 = none) ∧
    (∀ key st st',
      (∀ ns p d, spec.lookup key = some ns → p ∈ ns.paths → d ∈ p.dependencies → S d) →
      st.cache.lookup key0 = none →
      outSt (fetchResult spec fuel key st) = some st' → st'.cache.lookup key0 = none) ∧
    (∀ key cs acc st0 st', outSt acc = some st0 → st0.cache.lookup key0 = none →
      (∀ c ∈ cs, ∀ d ∈ c.path.dependencies, S d) →
      outSt (chainPaths spec fuel key cs acc) = some st' → st'.cache.lookup key0 = none) ∧
    (∀ key p st st', st.cache.lookup key0 = none → (∀ d ∈ p.dependencies, S d) →
      outSt (resolvePath spec fuel key p st) = some st' → st'.cache.lookup key0 = none) ∧
    (∀ name deps fn st st', st.cache.lookup key0 = none → (∀ d ∈ deps, S d) →
      outSt (fetchDependentResult spec fuel name deps fn st) = some st' →
      st'.cache.lookup key0 = none) ∧
    (∀ ds st st', st.cache.lookup key0 = none → (∀ d ∈ ds, S d) →
      outSt (resolveDeps spec fuel ds st) = some st' → st'.cache.lookup key0 = none) := by
  intro fuel
  induction fuel with
  | zero =>
    refine ⟨?_, ?_, ?_, ?_, ?_, ?_, ?_⟩
    · intro key st st' _ _ h; simp [resolve, outSt] at h
    · intro key st st' _ _ h; simp [fetchAndCache, outSt] at h
    · intro key st st' _ _ h; simp [fetchResult, outSt] at h
    · intro key cs acc st0 st' hacc _ _ h; simp [chainPaths, outSt] at h
    · intro key p st st' _ _ h; simp [resolvePath, outSt] at h
    · intro name deps fn st st' _ _ h; simp [fetchDependentResult, outSt] at h
    · intro ds st st' _ _ h; simp [resolveDeps, outSt] at h
  | succ f ih =>
    obtain ⟨ihRes, ihFAC, ihFR, ihCP, ihRP, ihFDR, ihRD⟩ := ih
    refine ⟨?_, ?_, ?_, ?_, ?_, ?_, ?_⟩
    · -- resolve
      intro key st st' hSk h0 h
      rw [resolve] at h
      cases hc : st.cache.lookup key with
      | some v =>
        simp only [hc, outSt, Option.some.injEq] at h
        exact h ▸ h0
      | none =>
        simp only [hc] at h
        cases hs : spec.lookup key with
        | none =>
          simp only [hs, outSt, Option.some.injEq] at h
          exact h ▸ h0
        | some ns =>
          simp only [hs] at h
          exact ihFAC key st st' hSk h0 h
    · -- fetchAndCache
      intro key st st' hSk h0 h
      have hk : key ≠ key0 := fun he => hKey (he ▸ hSk)
      have hDeps : ∀ ns p d, spec.lookup key = some ns → p ∈ ns.paths →
          d ∈ p.dependencies → S d :=
        fun ns p d hns hp hd => hClosed key ns p d hSk hns hp hd
      rw [fetchAndCache] at h
      cases hf : fetchResult spec f key st with
      | div => simp [hf, outSt] at h
      | thrown m st1 =>
        simp only [hf, outSt, Option.some.injEq] at h
        exact h ▸ ihFR key st st1 hDeps h0 (by rw [hf]; rfl)
      | settled r st1 =>
        simp only [hf] at h
        have h1 := ihFR key st st1 hDeps h0 (by rw [hf]; rfl)
        cases r with
        | ok v =>
          simp only [outSt, Option.some.injEq] at h
          subst h
          have hb : (key0 == key) = false := beq_eq_false_iff_ne.mpr (Ne.symm hk)
          simpa [List.lookup, hb] using h1
        | error e =>
          simp only [outSt, Option.some.injEq] at h
          exact h ▸ h1
    · -- fetchResult
      intro key st st' hDeps h0 h
      rw [fetchResult] at h
      cases hg : getPrioritizedPaths spec f st.stats key st.cache with
      | div => simp [hg, outSt] at h
      | thrown m =>
        simp only [hg, outSt, Option.some.injEq] at h
        exact h ▸ h0
      | ok l =>
        cases l with
        | nil =>
          simp only [hg, outSt, Option.some.injEq] at h
          exact h ▸ h0
        | cons c0 rest =>
          simp only [hg, outSt] at h
          obtain ⟨ns, hns, hmem⟩ := getPrioritizedPaths_mem hg
          have hc0 : ∀ d ∈ c0.path.dependencies, S d :=
            fun d hd => hDeps ns c0.path d hns (hmem c0 (List.mem_cons_self c0 rest)) hd
          have hrest : ∀ c ∈ rest, ∀ d ∈ c.path.dependencies, S d :=
            fun c hc d hd => hDeps ns c.path d hns (hmem c (List.mem_cons_of_mem c0 hc)) hd
          cases hr : resolvePath spec f key c0.path st with
          | div => rw [hr, chainPaths_div] at h; simp [outSt] at h
          | thrown m st0 =>
            rw [hr] at h
            have e1 := ihRP key c0.path st st0 h0 hc0 (by rw [hr]; rfl)
            exact ihCP key rest (Res.thrown m st0) st0 st' rfl e1 hrest h
          | settled r st0 =>
            rw [hr] at h
            have e1 := ihRP key c0.path st st0 h0 hc0 (by rw [hr]; rfl)
            exact ihCP key rest (Res.settled r st0) st0 st' rfl e1 hrest h
    · -- chainPaths
      intro key cs acc st0 st' hacc h0 hcs h
      cases cs with
      | nil =>
        rw [chainPaths_nil] at h
        rw [hacc] at h
        exact (Option.some.inj h) ▸ h0
      | cons c cs =>
        cases acc with
        | div => simp [outSt] at hacc
        | thrown m st1 =>
          obtain rfl : st0 = st1 := (Option.some.inj hacc).symm
          rw [chainPaths_thrown] at h
          simp only [outSt, Option.some.injEq] at h
          exact h ▸ h0
        | settled r st1 =>
          obtain rfl : st0 = st1 := (Option.some.inj hacc).symm
          cases r with
          | ok v =>
            rw [chainPaths_fulfilled] at h
            simp only [outSt, Option.some.injEq] at h
            exact h ▸ h0
          | error e =>
            rw [chainPaths_rejected] at h
            have hc0 : ∀ d ∈ c.path.dependencies, S d :=
              fun d hd => hcs c (List.mem_cons_self c cs) d hd
            have hcs2 : ∀ x ∈ cs, ∀ d ∈ x.path.dependencies, S d :=
              fun x hx d hd => hcs x (List.mem_cons_of_mem c hx) d hd
            cases hr : resolvePath spec f key c.path st0 with
            | div =>
              rw [hr] at h
              rw [show toAttempt .div = .div from rfl, chainPaths_div] at h
              simp [outSt] at h
            | thrown m st2 =>
              rw [hr] at h
              have e1 := ihRP key c.path st0 st2 h0 hc0 (by rw [hr]; rfl)
              exact ihCP key cs (toAttempt (Res.thrown m st2)) st2 st' rfl e1 hcs2 h
            | settled r2 st2 =>
              rw [hr] at h
              have e1 := ihRP key c.path st0 st2 h0 hc0 (by rw [hr]; rfl)
              exact ihCP key cs (toAttempt (Res.settled r2 st2)) st2 st' rfl e1 hcs2 h
    · -- resolvePath
      intro key p st st' h0 hdep h
      rw [resolvePath] at h
      exact ihFDR (some key) p.dependencies p.fn st st' h0 hdep h
    · -- fetchDependentResult
      intro name deps fn st st' h0 hdep h
      cases deps with
      | nil =>
        rw [fetchDependentResult] at h
        cases hx : execute fn [] st with
        | mk r st2 =>
          have hc2 : st2.cache = st.cache := by
            have hh := execute_cache fn [] st
            rw [hx] at hh
            exact hh
          rw [hx] at h
          cases r with
          | ok v =>
            simp only [outSt, Option.some.injEq] at h
            subst h
            simpa [hc2] using h0
          | error e =>
            simp only [outSt, Option.some.injEq] at h
            subst h
            simpa [hc2] using h0
      | cons d ds =>
        rw [fetchDependentResult] at h
        cases hrd : resolveDeps spec f (d :: ds) st with
        | div => rw [hrd] at h; simp [outSt] at h
        | thrown m st1 =>
          rw [hrd] at h
          simp only [outSt, Option.some.injEq] at h
          exact h ▸ ihRD (d :: ds) st st1 h0 hdep (by rw [hrd]; rfl)
        | settled rs st1 =>
          rw [hrd] at h
          have e1 := ihRD (d :: ds) st st1 h0 hdep (by rw [hrd]; rfl)
          cases rs with
          | error e =>
            simp only [outSt, Option.some.injEq] at h
            exact h ▸ e1
          | ok values =>
            simp only [outSt] at h
            cases hx : execute fn (zipDeps (d :: ds) values) st1 with
            | mk r st2 =>
              have hc2 : st2.cache = st1.cache := by
                have hh := execute_cache fn (zipDeps (d :: ds) values) st1
                rw [hx] at hh
                exact hh
              rw [hx] at h
              cases r with
              | ok v =>
                simp only [outSt, Option.some.injEq] at h
                subst h
                simpa [hc2] using e1
              | error e =>
                simp only [outSt, Option.some.injEq] at h
                subst h
                simpa [hc2] using e1
    · -- resolveDeps
      intro ds st st' h0 hdep h
      cases ds with
      | nil =>
        rw [resolveDeps] at h
        simp only [outSt, Option.some.injEq] at h
        exact h ▸ h0
      | cons d ds =>
        rw [resolveDeps] at h
        have hSd : S d := hdep d (List.mem_cons_self d ds)
        have hds : ∀ x ∈ ds, S x := fun x hx => hdep x (List.mem_cons_of_mem d hx)
        cases h1 : resolve spec f d st with
        | div => rw [h1] at h; simp [outSt] at h
        | thrown m st1 =>
          rw [h1] at h
          simp only [outSt, Option.some.injEq] at h
          exact h ▸ ihRes d st st1 hSd h0 (by rw [h1]; rfl)
        | settled r st1 =>
          rw [h1] at h
          simp only [outSt] at h
          have e1 := ihRes d st st1 hSd h0 (by rw [h1]; rfl)
          cases h2 : resolveDeps spec f ds st1 with
          | div => rw [h2] at h; simp [outSt] at h
          | thrown m st2 =>
            rw [h2] at h
            simp only [outSt, Option.some.injEq] at h
            exact h ▸ ihRD ds st1 st2 e1 hds (by rw [h2]; rfl)
          | settled rs st2 =>
            rw [h2] at h
            have e2 := ihRD ds st1 st2 e1 hds (by rw [h2]; rfl)
            cases r with
            | ok v =>
              cases rs with
              | ok vs =>
                simp only [outSt, Option.some.injEq] at h
                exact h ▸ e2
              | error e =>
                simp only [outSt, Option.some.injEq] at h
                exact h ▸ e2
            | error e =>
              simp only [outSt, Option.some.injEq] at h
              exact h ▸ e2

/-! ## The champion fold computes the minimum-cost path -/

theorem champion_cons (c d : CostedPath) (ds : List CostedPath) :
    champion c (d :: ds) = champion (if d.cost < c.cost then d else c) ds := rfl

theorem champion_mem (c : CostedPath) (cs : List CostedPath) : champion c cs ∈ c :: cs := by
  induction cs generalizing c with
  | nil => simp [champion]
  | cons d ds ih =>
    by_cases hlt : d.cost < c.cost
    · rw [champion_cons, if_pos hlt]
      exact List.mem_cons_of_mem c (ih d)
    · rw [champion_cons, if_neg hlt]
      rcases List.mem_cons.mp (ih c) with h | h
      · rw [h]
        exact List.mem_cons_self c (d :: ds)
      · exact List.mem_cons_of_mem c (List.mem_cons_of_mem d h)

theorem champion_le (c : CostedPath) (cs : List CostedPath) :
    ∀ x ∈ c :: cs, (champion c cs).cost ≤ x.cost := by
  induction cs generalizing c with
  | nil =>
    intro x hx
    rcases List.mem_cons.mp hx with rfl | hx
    · simp [champion]
    · simp at hx
  | cons d ds ih =>
    intro x hx
    by_cases hlt : d.cost < c.cost
    · rw [champion_cons, if_pos hlt]
      rcases List.mem_cons.mp hx with hxc | hx2
      · rw [hxc]
        exact le_trans (ih d d (List.mem_cons_self d ds)) (le_of_lt hlt)
      · exact ih d x hx2
    · rw [champion_cons, if_neg hlt]
      rcases List.mem_cons.mp hx with hxc | hx2
      · rw [hxc]
        exact ih c c (List.mem_cons_self c ds)
      · rcases List.mem_cons.mp hx2 with hxd | hx3
        · rw [hxd]
          exact le_trans (ih c c (List.mem_cons_self c ds)) (le_of_not_lt hlt)
        · exact ih c x (List.mem_cons_of_mem c hx3)

/-- The value of `costedPaths.reduce(champion)`: the minimum estimated cost
among a dependency's own paths (0 is never used: the engine throws on an empty
list before reaching it). -/
def minPathCost : List CostedPath → Rat
  | [] => 0
  | c :: cs => (champion c cs).cost

/-- Results of the cost machinery are stable in the fuel: one more unit of fuel
changes nothing once the computation does not diverge. -/
theorem cost_fuel_mono (spec : NStateSpec) : ∀ fuel : Nat,
    (∀ stats path cache r, getCost spec fuel stats path cache = r → r ≠ .div →
      getCost spec (fuel + 1) stats path cache = r) ∧
    (∀ stats deps cache r, depsCost spec fuel stats deps cache = r → r ≠ .div →
      depsCost spec (fuel + 1) stats deps cache = r) ∧
    (∀ stats key cache r, getCostedPaths spec fuel stats key cache = r → r ≠ .div →
      getCostedPaths spec (fuel + 1) stats key cache = r) ∧
    (∀ stats ps cache r, costPaths spec fuel stats ps cache = r → r ≠ .div →
      costPaths spec (fuel + 1) stats ps cache = r) := by
  intro fuel
  induction fuel with
  | zero =>
    refine ⟨?_, ?_, ?_, ?_⟩ <;>
      · intro _ _ _ r h hne
        rw [show r = .div from h.symm ▸ rfl] at hne
        exact absurd rfl hne
  | succ f ih =>
    obtain ⟨ihG, ihD, ihP, ihC⟩ := ih
    refine ⟨?_, ?_, ?_, ?_⟩
    · intro stats path cache r h hne
      rw [getCost] at h ⊢
      cases hd : depsCost spec f stats path.dependencies cache with
      | div => rw [hd] at h; exact absurd h.symm hne
      | thrown m => rw [ihD stats path.dependencies cache _ hd (by simp), ← h, hd]
      | ok s => rw [ihD stats path.dependencies cache _ hd (by simp), ← h, hd]
    · intro stats deps cache r h hne
      cases deps with
      | nil => rw [depsCost] at h ⊢; exact h
      | cons dep ds =>
        rw [depsCost] at h ⊢
        by_cases hc : (cache.lookup dep).isSome
        · simp only [hc, if_true] at h ⊢
          cases ht : depsCost spec f stats ds cache with
          | div => rw [ht] at h; exact absurd h.symm hne
          | thrown m => rw [ihD stats ds cache _ ht (by simp), ← h, ht]
          | ok s => rw [ihD stats ds cache _ ht (by simp), ← h, ht]
        · simp only [hc, Bool.false_eq_true, if_false] at h ⊢
          cases hg : getCostedPaths spec f stats dep cache with
          | div => rw [hg] at h; exact absurd h.symm hne
          | thrown m => rw [ihP stats dep cache _ hg (by simp), ← h, hg]
          | ok l =>
            cases l with
            | nil =>
              rw [hg] at h
              rw [ihP stats dep cache _ hg (by simp)]
              exact h
            | cons c0 cs =>
              rw [hg] at h
              rw [ihP stats dep cache _ hg (by simp)]
              cases ht : depsCost spec f stats ds cache with
              | div =>
                rw [ht] at h
                exact absurd (show CRes.div = r from h).symm hne
              | thrown m =>
                rw [ht] at h
                rw [ihD stats ds cache _ ht (by simp)]
                exact h
              | ok s =>
                rw [ht] at h
                rw [ihD stats ds cache _ ht (by simp)]
                exact h
    · intro stats key cache r h hne
      rw [getCostedPaths] at h ⊢
      cases hs : spec.lookup key with
      | none => rw [hs] at h; exact h
      | some ns =>
        rw [hs] at h
        exact ihC stats ns.paths cache r h hne
    · intro stats ps cache r h hne
      cases ps with
      | nil => rw [costPaths] at h ⊢; exact h
      | cons p ps =>
        rw [costPaths] at h ⊢
        cases hg : getCost spec f stats p cache with
        | div =>
          rw [hg] at h
          exact absurd (show CRes.div = r from h).symm hne
        | thrown m =>
          rw [hg] at h
          rw [ihG stats p cache _ hg (by simp)]
          exact h
        | ok c =>
          rw [hg] at h
          rw [ihG stats p cache _ hg (by simp)]
          cases ht : costPaths spec f stats ps cache with
          | div =>
            rw [ht] at h
            exact absurd (show CRes.div = r from h).symm hne
          | thrown m =>
            rw [ht] at h
            rw [ihC stats ps cache _ ht (by simp)]
            exact h
          | ok rest =>
            rw [ht] at h
            rw [ihC stats ps cache _ ht (by simp)]
            exact h

theorem getCostedPaths_mono {spec : NStateSpec} {stats : StatsMap} {key : Key}
    {cache : Cache} {r : CRes (List CostedPath)} {f g : Nat} (hfg : f ≤ g)
    (h : getCostedPaths spec f stats key cache = r) (hne : r ≠ .div) :
    getCostedPaths spec g stats key cache = r := by
  induction g, hfg using Nat.le_induction with
  | base => exact h
  | succ n hn ihn => exact (cost_fuel_mono spec n).2.2.1 stats key cache r ihn hne

theorem depsCost_eq {spec : NStateSpec} {stats : StatsMap} {cache : Cache} {g : Nat}
    (L : Key → List CostedPath) :
    ∀ (deps : List Key) (fuel : Nat), g + deps.length < fuel →
    (∀ d ∈ deps, (cache.lookup d).isSome = false →
      getCostedPaths spec g stats d cache = .ok (L d) ∧ L d ≠ []) →
    depsCost spec fuel stats deps cache
      = .ok ((deps.map
          (fun d => if (cache.lookup d).isSome then 0 else minPathCost (L d))).sum) := by
  intro deps
  induction deps with
  | nil =>
    intro fuel hlt _
    match fuel, hlt with
    | f + 1, _ => simp [depsCost]
  | cons dep ds ih =>
    intro fuel hlt hL
    match fuel, hlt with
    | f + 1, hlt =>
      have hgf : g ≤ f := by simp only [List.length_cons] at hlt; omega
      have hf2 : g + ds.length < f := by simp only [List.length_cons] at hlt; omega
      have htail := ih f hf2 (fun d hd hc => hL d (List.mem_cons_of_mem dep hd) hc)
      rw [depsCost]
      by_cases hc : (cache.lookup dep).isSome
      · simp only [hc, if_true, htail, List.map_cons, List.sum_cons, if_pos, qadd_eq]
      · have hcf : (cache.lookup dep).isSome = false := Bool.eq_false_iff.mpr hc
        obtain ⟨hg0, hne⟩ := hL dep (List.mem_cons_self dep ds) hcf
        have hg1 : getCostedPaths spec f stats dep cache = .ok (L dep) :=
          getCostedPaths_mono hgf hg0 (by simp)
        cases hLd : L dep with
        | nil => exact absurd hLd hne
        | cons c0 cs =>
          rw [hLd] at hg1
          simp only [hcf, Bool.false_eq_true, if_false, hg1, htail, List.map_cons,
            List.sum_cons, qadd_eq]
          rw [hLd]
          rfl

/-! ## Claim theorems -/

/-- C6: resolving a key that has neither a cache/seed entry nor a spec entry
settles immediately with the "not defined in the data source" rejection, and
the returned scope state is the input state itself — no cache interaction, no
producer invocation, no stats or event change. -/
theorem resolve_undefined_key_rejects (spec : NStateSpec) (fuel : Nat) (key : Key) (st : St)
    (h1 : st.cache.lookup key = none) (h2 : spec.lookup key = none) :
    resolve spec (fuel + 1) key st
      = .settled (.error (key ++ " is not defined in the data source")) st := by
  simp [resolve, h1, h2]

theorem resolve_undefined_key_rejects_w :
    resolve [] 1 "q" (getInstance [] [] 0)
      = .settled (.error ("q" ++ " is not defined in the data source")) (getInstance [] [] 0) :=
  resolve_undefined_key_rejects [] 0 "q" (getInstance [] [] 0) rfl rfl

/-- C2: `getPrioritizedPaths` is the stable ascending-cost sort of the costed
paths — sorted pairwise, a permutation of the input, and equal-cost paths keep
their declaration order (the filter at each cost value is unchanged) — and
`fetchResult` attempts the cheapest path first, falling back to the
next-cheapest attempt whenever the current chain is rejected, so a failed path
is always followed by an attempt of the next one before the key fails. -/
theorem fetchResult_cost_order_fallback (spec : NStateSpec) :
    (∀ (fuel : Nat) (stats : StatsMap) (key : Key) (cache : Cache) (l : List CostedPath),
      getCostedPaths spec fuel stats key cache = .ok l →
      getPrioritizedPaths spec fuel stats key cache = .ok (sortByCost l)) ∧
    (∀ l : List CostedPath, (sortByCost l).Pairwise (fun a b => a.cost ≤ b.cost)) ∧
    (∀ l : List CostedPath, (sortByCost l).Perm l) ∧
    (∀ (l : List CostedPath) (q : Rat),
      (sortByCost l).filter (fun d => d.cost == q) = l.filter (fun d => d.cost == q)) ∧
    (∀ (fuel : Nat) (key : Key) (st : St) (c0 : CostedPath) (rest : List CostedPath),
      getPrioritizedPaths spec fuel st.stats key st.cache = .ok (c0 :: rest) →
      fetchResult spec (fuel + 1) key st
        = chainPaths spec fuel key rest (resolvePath spec fuel key c0.path st)) ∧
    (∀ (fuel : Nat) (key : Key) (c : CostedPath) (cs : List CostedPath) (e : String) (st : St),
      chainPaths spec (fuel + 1) key (c :: cs) (.settled (.error e) st)
        = chainPaths spec fuel key cs (toAttempt (resolvePath spec fuel key c.path st))) := by
  refine ⟨?_, sortByCost_pairwise, sortByCost_perm, sortByCost_filter, ?_, ?_⟩
  · intro fuel stats key cache l h
    exact getPrioritizedPaths_ok h
  · intro fuel key st c0 rest h
    rw [fetchResult]
    simp only [h]
  · intro fuel key c cs e st
    exact chainPaths_rejected spec fuel key c cs e st

/-- Fixture: a key with two zero-dependency paths whose producers always fail. -/
def fnF1 : FetchFn := { id := 20, arity := 1, run := fun _ => .error "e1", dur := 1 }

def fnF2 : FetchFn := { id := 21, arity := 1, run := fun _ => .error "e2", dur := 5 }

def fSpec : NStateSpec :=
  [("k", { paths := [{ dependencies := [], fn := fnF1 }, { dependencies := [], fn := fnF2 }] })]

def fSt0 : St := getInstance [] [] 0

def fCP1 : CostedPath := { cost := Number.EPSILON, path := { dependencies := [], fn := fnF1 } }

def fCP2 : CostedPath := { cost := Number.EPSILON, path := { dependencies := [], fn := fnF2 } }

theorem fetchResult_cost_order_fallback_w :
    fetchResult fSpec 6 "k" fSt0
      = chainPaths fSpec 5 "k" [fCP2] (resolvePath fSpec 5 "k" fCP1.path fSt0) :=
  (fetchResult_cost_order_fallback fSpec).2.2.2.2.1 5 "k" fSt0 fCP1 [fCP2] rfl

/-- C10: when a requested key has a spec entry but its first path names a
dependency with no spec entry and no cache entry, `resolve` propagates a
synchronous `TypeError` raised during cost estimation (reading `.paths` of
`undefined`), leaving the state untouched — it does not return a settled
(rejected) future, so the fails-immediately-with-a-rejected-future behaviour
of undefined keys does not extend to undefined dependencies. -/
theorem resolve_undefined_dependency_throws (spec : NStateSpec) (q : Nat) (key d : Key)
    (ds : List Key) (fn : FetchFn) (rest : List NormalizedPath) (ns : NSpec) (st : St)
    (hcache : st.cache.lookup key = none)
    (hspec : spec.lookup key = some ns)
    (hpaths : ns.paths = { dependencies := d :: ds, fn := fn } :: rest)
    (hdc : st.cache.lookup d = none)
    (hds : spec.lookup d = none) :
    resolve spec (q + 8) key st = .thrown undefinedSpecMsg st
    ∧ ∀ (r : Except String Value) (st2 : St),
        resolve spec (q + 8) key st ≠ .settled r st2 := by
  have hdcf : (st.cache.lookup d).isSome = false := by rw [hdc]; rfl
  have e1 : getCostedPaths spec (q + 1) st.stats d st.cache = .thrown undefinedSpecMsg := by
    rw [getCostedPaths]
    simp [hds]
  have e2 : depsCost spec (q + 2) st.stats (d :: ds) st.cache = .thrown undefinedSpecMsg := by
    show depsCost spec (q + 1 + 1) st.stats (d :: ds) st.cache = _
    rw [depsCost]
    simp [hdcf, e1]
  have e3 : getCost spec (q + 3) st.stats { dependencies := d :: ds, fn := fn } st.cache
      = .thrown undefinedSpecMsg := by
    show getCost spec (q + 2 + 1) st.stats _ st.cache = _
    rw [getCost]
    simp [e2]
  have e4 : costPaths spec (q + 4) st.stats
      ({ dependencies := d :: ds, fn := fn } :: rest) st.cache = .thrown undefinedSpecMsg := by
    show costPaths spec (q + 3 + 1) st.stats _ st.cache = _
    rw [costPaths]
    simp [e3]
  have e5 : getCostedPaths spec (q + 5) st.stats key st.cache = .thrown undefinedSpecMsg := by
    show getCostedPaths spec (q + 4 + 1) st.stats key st.cache = _
    rw [getCostedPaths]
    simp [hspec, hpaths, e4]
  have e6 : getPrioritizedPaths spec (q + 5) st.stats key st.cache
      = .thrown undefinedSpecMsg := by
    rw [getPrioritizedPaths, e5]
  have e7 : fetchResult spec (q + 6) key st = .thrown undefinedSpecMsg st := by
    show fetchResult spec (q + 5 + 1) key st = _
    rw [fetchResult]
    simp [e6]
  have e8 : fetchAndCache spec (q + 7) key st = .thrown undefinedSpecMsg st := by
    show fetchAndCache spec (q + 6 + 1) key st = _
    rw [fetchAndCache]
    simp [e7]
  have hmain : resolve spec (q + 8) key st = .thrown undefinedSpecMsg st := by
    show resolve spec (q + 7 + 1) key st = _
    rw [resolve]
    simp [hcache, hspec, e8]
  refine ⟨hmain, fun r st2 hcon => ?_⟩
  rw [hmain] at hcon
  exact Res.noConfusion hcon

/-- Fixture: a key whose only path depends on a key that is not in the spec. -/
def fnU : FetchFn := { id := 40, arity := 1, run := fun m => .ok ((m.lookup "d").getD 0), dur := 2 }

def uSpec : NStateSpec := [("k", { paths := [{ dependencies := ["d"], fn := fnU }] })]

theorem resolve_undefined_dependency_throws_w :
    resolve uSpec 8 "k" (getInstance [] [] 0)
      = .thrown undefinedSpecMsg (getInstance [] [] 0) :=
  (resolve_undefined_dependency_throws uSpec 0 "k" "d" [] fnU []
    { paths := [{ dependencies := ["d"], fn := fnU }] } (getInstance [] [] 0)
    rfl rfl rfl rfl rfl).1

/-! ## Running-average bookkeeping -/

/-- `N` successive recorded execution attempts of one producer, with the given
millisecond amounts. -/
def recordAll (fn : FetchFn) (ds : List Nat) (stats : StatsMap) : StatsMap :=
  ds.foldl (fun (s : StatsMap) (d : Nat) => recordCost s fn (d : Rat)) stats

theorem recordCost_step (stats : StatsMap) (fn : FetchFn) (d : Rat) (σ : ℚ) (c : ℕ)
    (hc : c ≠ 0) (h : stats.lookup fn.id = some { avg := σ / (c : ℚ), count := c }) :
    (recordCost stats fn d).lookup fn.id
      = some { avg := (σ + d) / ((c : ℚ) + 1), count := c + 1 } := by
  rw [recordCost_avg, h]
  simp only [Option.getD_some]
  rw [List.lookup]
  simp only [beq_self_eq_true]
  have hcast : ((c : ℚ)) ≠ 0 := Nat.cast_ne_zero.mpr hc
  simp only [Option.some.injEq, Stats.mk.injEq]
  refine ⟨?_, trivial⟩
  rw [div_mul_cancel₀ _ hcast]

theorem recordAll_lookup (fn : FetchFn) : ∀ (ds : List Nat) (stats : StatsMap) (σ : ℚ) (c : ℕ),
    c ≠ 0 → stats.lookup fn.id = some { avg := σ / (c : ℚ), count := c } →
    (recordAll fn ds stats).lookup fn.id
      = some { avg := (σ + (ds.map (fun (d : Nat) => (d : ℚ))).sum) / ((c : ℚ) + ds.length)
               count := c + ds.length } := by
  intro ds
  induction ds with
  | nil =>
    intro stats σ c hc h
    simp only [recordAll, List.foldl_nil, List.map_nil, List.sum_nil, List.length_nil,
      add_zero, Nat.cast_zero, Nat.add_zero]
    exact h
  | cons d ds ih =>
    intro stats σ c hc h
    rw [recordAll, List.foldl_cons]
    have hstep := recordCost_step stats fn (d : Rat) σ c hc h
    have hstep' : (recordCost stats fn (d : Rat)).lookup fn.id
        = some { avg := (σ + (d : ℚ)) / (((c + 1 : ℕ)) : ℚ), count := c + 1 } := by
      rw [hstep]
      simp only [Option.some.injEq, Stats.mk.injEq]
      refine ⟨?_, trivial⟩
      push_cast
      ring_nf
    have hrec := ih (recordCost stats fn (d : Rat)) (σ + (d : ℚ)) (c + 1)
      (Nat.succ_ne_zero c) hstep'
    rw [recordAll] at hrec
    rw [hrec]
    simp only [List.map_cons, List.sum_cons, List.length_cons, Option.some.injEq,
      Stats.mk.injEq]
    constructor
    · push_cast
      ring_nf
    · omega

/-- C7: starting from no history, recording the durations `d_1..d_N` of `N`
executions leaves a stats entry whose count is `N` and whose running average
is exactly the arithmetic mean `(d_1 + ... + d_N) / N`; moreover, whenever
that mean is nonzero (and `N < 2⁵²`, so the mean cannot drop below
`Number.EPSILON`), the producer with no history prices strictly cheaper via
`selfCost` than the one with the recorded nonzero average. -/
theorem recordCost_running_mean (fn : FetchFn) (ds : List Nat) (hne : ds ≠ []) :
    ((recordAll fn ds []).lookup fn.id
      = some { avg := ((ds.sum : ℕ) : ℚ) / ((ds.length : ℕ) : ℚ), count := ds.length }) ∧
    (ds.sum ≠ 0 → ds.length < 2 ^ 52 →
      selfCost [] fn < selfCost (recordAll fn ds []) fn) := by
  obtain ⟨d, ds', rfl⟩ := List.exists_cons_of_ne_nil hne
  have hstep0 : (recordCost [] fn (d : Rat)).lookup fn.id
      = some { avg := (d : ℚ) / ((1 : ℕ) : ℚ), count := 1 } := by
    rw [recordCost_avg]
    simp only [List.lookup_nil, Option.getD_none]
    rw [List.lookup]
    simp only [beq_self_eq_true]
    simp only [Option.some.injEq, Stats.mk.injEq]
    refine ⟨?_, trivial⟩
    push_cast
    ring_nf
  have hfold := recordAll_lookup fn ds' (recordCost [] fn (d : Rat)) (d : ℚ) 1
    one_ne_zero hstep0
  have hmean : ((recordAll fn (d :: ds') []).lookup fn.id
      = some { avg := (((d :: ds').sum : ℕ) : ℚ) / (((d :: ds').length : ℕ) : ℚ)
               count := (d :: ds').length }) := by
    rw [recordAll, List.foldl_cons]
    rw [recordAll] at hfold
    rw [hfold]
    simp only [Option.some.injEq, Stats.mk.injEq, List.sum_cons, List.length_cons]
    constructor
    · rw [← Nat.cast_list_sum]
      push_cast
      ring_nf
    · omega
  refine ⟨hmean, ?_⟩
  intro hsum hlen
  have hlenpos : (0 : ℚ) < (((d :: ds').length : ℕ) : ℚ) := by
    exact_mod_cast List.length_pos.mpr (List.cons_ne_nil d ds')
  have hpos : (0 : ℚ) < (((d :: ds').sum : ℕ) : ℚ) / (((d :: ds').length : ℕ) : ℚ) := by
    apply div_pos _ hlenpos
    exact_mod_cast Nat.pos_of_ne_zero hsum
  have h2 : selfCost (recordAll fn (d :: ds') []) fn
      = (((d :: ds').sum : ℕ) : ℚ) / (((d :: ds').length : ℕ) : ℚ) := by
    rw [selfCost, hmean]
    simp only []
    rw [if_neg (ne_of_gt hpos)]
  have h1 : selfCost [] fn = Number.EPSILON := rfl
  rw [h1, h2, Number.EPSILON_eq]
  calc (1 : ℚ) / 2 ^ 52
      < 1 / (((d :: ds').length : ℕ) : ℚ) := by
        apply one_div_lt_one_div_of_lt hlenpos
        exact_mod_cast hlen
    _ ≤ (((d :: ds').sum : ℕ) : ℚ) / (((d :: ds').length : ℕ) : ℚ) := by
        apply (div_le_div_iff_of_pos_right hlenpos).mpr
        exact_mod_cast Nat.one_le_iff_ne_zero.mpr hsum

def fnW7 : FetchFn := { id := 50, arity := 1, run := fun _ => .ok 0, dur := 0 }

theorem recordCost_running_mean_w :
    ((recordAll fnW7 [3, 5] []).lookup fnW7.id
      = some { avg := ((([3, 5] : List Nat).sum : ℕ) : ℚ) / ((([3, 5] : List Nat).length : ℕ) : ℚ)
               count := ([3, 5] : List Nat).length })
    ∧ selfCost [] fnW7 < selfCost (recordAll fnW7 [3, 5] []) fnW7 := by
  have h := recordCost_running_mean fnW7 [3, 5] (by simp)
  exact ⟨h.1, h.2 (by simp) (by norm_num)⟩

/-- C8: a failing producer invocation (rejection, throw, or error callback —
all are funnelled into a rejected promise by `execute`) updates that
producer's running average with the `Number.MAX_SAFE_INTEGER` sentinel and
leaves the event list untouched, whether the failure happens with or without
dependencies; a failure of the dependency fan-out skips the producer entirely
and also emits nothing; only a successful path execution appends a `timing`
event (exactly one, with the documented fields). -/
theorem execute_failure_sentinel_no_event (spec : NStateSpec) :
    (∀ (fn : FetchFn) (deps : DepMap) (st : St) (e : String), fn.run deps = .error e →
      execute fn deps st = (.error e,
        { st with time := st.time + fn.dur
                  stats := recordCost st.stats fn Number.MAX_SAFE_INTEGER })) ∧
    (∀ (f : Nat) (name : Option Key) (fn : FetchFn) (st : St) (e : String),
      fn.run [] = .error e →
      fetchDependentResult spec (f + 1) name [] fn st = .settled (.error e)
        { st with time := st.time + fn.dur
                  stats := recordCost st.stats fn Number.MAX_SAFE_INTEGER }) ∧
    (∀ (f : Nat) (name : Option Key) (d : Key) (ds : List Key) (fn : FetchFn) (st st1 : St)
       (e : String), resolveDeps spec f (d :: ds) st = .settled (.error e) st1 →
      fetchDependentResult spec (f + 1) name (d :: ds) fn st = .settled (.error e) st1) ∧
    (∀ (f : Nat) (name : Option Key) (d : Key) (ds : List Key) (fn : FetchFn) (st st1 : St)
       (values : List Value) (e : String),
      resolveDeps spec f (d :: ds) st = .settled (.ok values) st1 →
      fn.run (zipDeps (d :: ds) values) = .error e →
      fetchDependentResult spec (f + 1) name (d :: ds) fn st = .settled (.error e)
        { st1 with time := st1.time + fn.dur
                   stats := recordCost st1.stats fn Number.MAX_SAFE_INTEGER }) ∧
    (∀ (f : Nat) (name : Option Key) (d : Key) (ds : List Key) (fn : FetchFn) (st st1 : St)
       (values : List Value) (v : Value),
      resolveDeps spec f (d :: ds) st = .settled (.ok values) st1 →
      fn.run (zipDeps (d :: ds) values) = .ok v →
      fetchDependentResult spec (f + 1) name (d :: ds) fn st = .settled (.ok v)
        { st1 with time := st1.time + fn.dur
                   stats := recordCost st1.stats fn (fn.dur : Rat)
                   events := { name := name
                               dependencies := d :: ds
                               requestStart := st.time
                               waitDuration := st1.time - st.time
                               fetchStart := st1.time
                               fetchDuration := st1.time + fn.dur - st1.time
                               totalDuration := st1.time + fn.dur - st.time } :: st1.events }) := by
  refine ⟨?_, ?_, ?_, ?_, ?_⟩
  · intro fn deps st e h
    simp [execute, h]
  · intro f name fn st e h
    rw [fetchDependentResult]
    simp [execute, h]
  · intro f name d ds fn st st1 e h
    rw [fetchDependentResult]
    simp [h]
  · intro f name d ds fn st st1 values e hrd h
    rw [fetchDependentResult]
    simp [hrd, execute, h]
  · intro f name d ds fn st st1 values v hrd h
    rw [fetchDependentResult]
    simp [hrd, execute, h]

theorem execute_failure_sentinel_no_event_w :
    execute fnF1 [] fSt0
      = (.error "e1",
          { fSt0 with time := fSt0.time + fnF1.dur
                      stats := recordCost fSt0.stats fnF1 Number.MAX_SAFE_INTEGER }) :=
  (execute_failure_sentinel_no_event fSpec).1 fnF1 [] fSt0 "e1" rfl

/-! ## C4: cost estimation -/

theorem minPathCost_le (l : List CostedPath) : ∀ c ∈ l, minPathCost l ≤ c.cost := by
  cases l with
  | nil => intro c hc; simp at hc
  | cons c0 cs => intro c hc; exact champion_le c0 cs c hc

theorem minPathCost_mem (l : List CostedPath) (h : l ≠ []) :
    minPathCost l ∈ l.map (fun c => c.cost) := by
  cases l with
  | nil => exact absurd rfl h
  | cons c0 cs => exact List.mem_map_of_mem (fun c => c.cost) (champion_mem c0 cs)

def fnC4 : FetchFn := { id := 60, arity := 1, run := fun _ => .ok 0, dur := 0 }

/-- A stats table recording exactly one execution that took 0 ms. -/
def statsC4 : StatsMap := recordCost [] fnC4 ((0 : Nat) : Rat)

/-- Modelled from the spec's words only (for comparison with the code):
"selfCost = producer's running average if known, else a negligible epsilon" —
i.e. any producer with execution history is priced at its recorded running
average, including a recorded average of zero. -/
def specSelfCost (stats : StatsMap) (fn : FetchFn) : Rat :=
  match stats.lookup fn.id with
  | some s => s.avg
  | none => Number.EPSILON

/-- C4 (counterexample): a producer whose one recorded execution took 0 ms has
execution history with running average 0, yet `getCost` prices the path at
`Number.EPSILON` (the `(stats && stats.avg) || Number.EPSILON` fallback treats
a zero average as absent), while the claim's reading of selfCost gives 0 —
and the two differ. -/
theorem getCost_zero_history_cex :
    statsC4.lookup fnC4.id = some { avg := 0, count := 1 }
    ∧ getCost [] 2 statsC4 { dependencies := [], fn := fnC4 } [] = .ok Number.EPSILON
    ∧ specSelfCost statsC4 fnC4 = 0
    ∧ Number.EPSILON ≠ (0 : Rat) := by
  refine ⟨by decide, by decide, by decide, by decide⟩

/-- C4 (amended): with enough fuel, the estimated cost of a path equals
`selfCost` plus the sum, over dependencies not already in the cache, of the
minimum cost among that dependency's own recursively costed paths, while
dependencies already in the cache contribute zero; `minPathCost` really is
the minimum (a lower bound attained by a member); and `selfCost` is the
producer's recorded running average when that average is nonzero, and
`Number.EPSILON` otherwise — both when there is no history and when the
recorded average is zero. -/
theorem getCost_characterization (spec : NStateSpec) (stats : StatsMap) (cache : Cache)
    (g fuel : Nat) (deps : List Key) (fn : FetchFn) (L : Key → List CostedPath)
    (hfuel : g + deps.length < fuel)
    (hL : ∀ d ∈ deps, (cache.lookup d).isSome = false →
      getCostedPaths spec g stats d cache = .ok (L d) ∧ L d ≠ []) :
    (getCost spec (fuel + 1) stats { dependencies := deps, fn := fn } cache
      = .ok (selfCost stats fn
          + (deps.map
              (fun d => if (cache.lookup d).isSome then 0 else minPathCost (L d))).sum)) ∧
    (∀ d ∈ deps, ∀ c ∈ L d, minPathCost (L d) ≤ c.cost) ∧
    (∀ d ∈ deps, L d ≠ [] → minPathCost (L d) ∈ (L d).map (fun c => c.cost)) ∧
    (stats.lookup fn.id = none → selfCost stats fn = Number.EPSILON) ∧
    (∀ s, stats.lookup fn.id = some s → s.avg ≠ 0 → selfCost stats fn = s.avg) ∧
    (∀ s, stats.lookup fn.id = some s → s.avg = 0 → selfCost stats fn = Number.EPSILON) := by
  refine ⟨?_, ?_, ?_, ?_, ?_, ?_⟩
  · rw [getCost]
    simp only [depsCost_eq L deps fuel hfuel hL, qadd_eq]
  · exact fun d _ c hc => minPathCost_le (L d) c hc
  · exact fun d _ hne => minPathCost_mem (L d) hne
  · intro h
    rw [selfCost, h]
  · intro s h hne
    rw [selfCost, h]
    simp [hne]
  · intro s h he
    rw [selfCost, h]
    simp [he]

def fnX : FetchFn := { id := 61, arity := 1, run := fun _ => .ok 5, dur := 4 }

def fnY : FetchFn := { id := 62, arity := 1, run := fun m => .ok ((m.lookup "x").getD 0), dur := 1 }

def xSpec : NStateSpec := [("x", { paths := [{ dependencies := [], fn := fnX }] })]

def LW : Key → List CostedPath :=
  fun _ => [{ cost := Number.EPSILON, path := { dependencies := [], fn := fnX } }]

theorem getCost_characterization_w :
    getCost xSpec 7 [] { dependencies := ["x"], fn := fnY } []
      = .ok (selfCost [] fnY
          + ((["x"] : List Key).map
              (fun d => if (([] : Cache).lookup d).isSome then 0 else minPathCost (LW d))).sum) := by
  refine (getCost_characterization xSpec [] [] 4 6 ["x"] fnY LW (by norm_num) ?_).1
  intro d hd _
  have hdx : d = "x" := by simpa using hd
  subst hdx
  exact ⟨rfl, by simp [LW]⟩

/-! ## C1: memoization and at-most-once execution -/

/-- C1: (memoization) once `resolve` has settled a key successfully, resolving
the same key again in that scope — at any fuel — returns the very same value
with the scope state completely unchanged, so the producers on the winning
path ran exactly once across both calls; (sharing) a producer that belongs
only to paths of an already-cached key is never executed (its stats entry,
and in particular its execution count, is untouched) by any resolution in the
scope, which is why two keys depending on one key `a` run `a`'s producer once:
after the first consumer caches `a`, the second consumer's resolution cannot
touch `a`'s producer. -/
theorem resolve_memoized_once (spec : NStateSpec) :
    (∀ (fuel fuel2 : Nat) (key : Key) (st st' : St) (v : Value),
      resolve spec (fuel + 1) key st = .settled (.ok v) st' →
      resolve spec (fuel2 + 1) key st' = .settled (.ok v) st') ∧
    (∀ (i : Nat) (a : Key),
      (∀ k ns p, spec.lookup k = some ns → p ∈ ns.paths → p.fn.id = i → k = a) →
      ∀ (fuel : Nat) (key : Key) (st st' : St), (st.cache.lookup a).isSome →
        outSt (resolve spec fuel key st) = some st' →
        st'.stats.lookup i = st.stats.lookup i) := by
  constructor
  · intro fuel fuel2 key st st' v h
    exact resolve_cached (resolve_success_lookup h)
  · intro i a hOnly fuel key st st' hA h
    exact (engine_statsFrame spec i a hOnly fuel).1 key st st' hA h

theorem lookup_mem_assoc {β : Type} {l : List (Key × β)} {k : Key} {v : β}
    (h : l.lookup k = some v) : (k, v) ∈ l := by
  induction l with
  | nil => simp at h
  | cons kv tl ih =>
    obtain ⟨k1, v1⟩ := kv
    rw [List.lookup] at h
    cases hbeq : (k == k1) with
    | true =>
      rw [hbeq] at h
      obtain rfl := Option.some.inj h
      have hk1 : k = k1 := eq_of_beq hbeq
      subst hk1
      exact List.mem_cons_self _ _
    | false =>
      rw [hbeq] at h
      exact List.mem_cons_of_mem _ (ih h)

/-- Fixture for C1: `b` and `c` both depend on `a`. -/
def fnWA : FetchFn := { id := 10, arity := 1, run := fun _ => .ok 1, dur := 2 }

def fnWB : FetchFn :=
  { id := 11, arity := 1, run := fun m => .ok ((m.lookup "a").getD 0 + 1), dur := 3 }

def fnWC : FetchFn :=
  { id := 12, arity := 1, run := fun m => .ok ((m.lookup "a").getD 0 + 2), dur := 4 }

def wSpec : NStateSpec :=
  [("a", { paths := [{ dependencies := [], fn := fnWA }] }),
   ("b", { paths := [{ dependencies := ["a"], fn := fnWB }] }),
   ("c", { paths := [{ dependencies := ["a"], fn := fnWC }] })]

def wSt1 : St := settledSt (resolve wSpec 20 "b" (getInstance [] [] 0))

def wSt2 : St := (outSt (resolve wSpec 20 "c" wSt1)).getD default

theorem resolve_memoized_once_w :
    resolve wSpec 16 "b" wSt1 = .settled (.ok 2) wSt1
    ∧ wSt2.stats.lookup 10 = wSt1.stats.lookup 10 := by
  constructor
  · exact (resolve_memoized_once wSpec).1 19 15 "b" (getInstance [] [] 0) wSt1 2 (by decide)
  · refine (resolve_memoized_once wSpec).2 10 "a" ?_ 20 "c" wSt1 wSt2 (by decide) (by decide)
    intro k ns p hk hp hid
    have hmem := lookup_mem_assoc hk
    simp only [wSpec, List.mem_cons, List.mem_singleton, Prod.mk.injEq,
      List.not_mem_nil, or_false] at hmem
    rcases hmem with ⟨rfl, rfl⟩ | ⟨rfl, rfl⟩ | ⟨rfl, rfl⟩
    · rfl
    · simp only [List.mem_singleton] at hp
      subst hp
      exact absurd hid (by decide)
    · simp only [List.mem_singleton] at hp
      subst hp
      exact absurd hid (by decide)

/-! ## C3: eviction on total failure -/

/-- C3: if a key misses the cache, has a spec entry, and its resolution
settles with an error (every path failed), then the key is absent from the
final cache — the next resolve of that key re-enters `fetchAndCache` and
re-executes producers instead of replaying a cached rejection — and the error
is exactly the one `fetchResult` produced, which the `.catch` chain shows is
the error of the last attempted path (an empty remaining chain returns the
current rejection; a rejected chain replaces it with the next attempt's
outcome).  The only assumption is that the key is not its own transitive
dependency, expressed by a set `S` of keys that is closed under spec
dependencies, contains every dependency of the key's own paths, and excludes
the key itself; any key of an acyclic spec satisfies this with `S` the keys
reachable from its dependencies (for a key with dependency-free paths,
`S = ∅` works), and nothing constrains which other keys depend on the key.
A key lying on a dependency cycle through itself makes the source recurse
unboundedly instead of settling, so no such hypothesis-free case exists. -/
theorem resolve_total_failure_evicts (spec : NStateSpec) :
    (∀ (fuel : Nat) (key : Key) (st st' : St) (e : String) (ns : NSpec) (S : Key → Prop),
      (∀ k ns2 p d, S k → spec.lookup k = some ns2 → p ∈ ns2.paths →
        d ∈ p.dependencies → S d) →
      (∀ p d, p ∈ ns.paths → d ∈ p.dependencies → S d) →
      ¬ S key →
      st.cache.lookup key = none →
      spec.lookup key = some ns →
      resolve spec (fuel + 2) key st = .settled (.error e) st' →
      st'.cache.lookup key = none
      ∧ fetchResult spec fuel key st = .settled (.error e) st'
      ∧ (∀ g, resolve spec (g + 1) key st' = fetchAndCache spec g key st')) ∧
    (∀ (g : Nat) (key : Key) (acc : RRes), chainPaths spec (g + 1) key [] acc = acc) ∧
    (∀ (g : Nat) (key : Key) (c : CostedPath) (cs : List CostedPath) (e : String) (st0 : St),
      chainPaths spec (g + 1) key (c :: cs) (.settled (.error e) st0)
        = chainPaths spec g key cs (toAttempt (resolvePath spec g key c.path st0))) := by
  refine ⟨?_, chainPaths_nil spec, chainPaths_rejected spec⟩
  intro fuel key st st' e ns S hClosed hS hKey hc hs h
  have hDeps : ∀ ns2 p d, spec.lookup key = some ns2 → p ∈ ns2.paths →
      d ∈ p.dependencies → S d := by
    intro ns2 p d hns2 hp hd
    obtain rfl : ns2 = ns := Option.some.inj (hns2.symm.trans hs)
    exact hS p d hp hd
  rw [show fuel + 2 = fuel + 1 + 1 from rfl] at h
  rw [resolve] at h
  simp only [hc, hs] at h
  rw [fetchAndCache] at h
  cases hf : fetchResult spec fuel key st with
  | div => rw [hf] at h; simp at h
  | thrown m st1 => rw [hf] at h; simp at h
  | settled r st1 =>
    rw [hf] at h
    cases r with
    | ok v => simp at h
    | error e2 =>
      simp only [Res.settled.injEq, Except.error.injEq] at h
      obtain ⟨rfl, rfl⟩ := h
      have hnone : st1.cache.lookup key = none :=
        (engine_noInsertS spec key S hClosed hKey fuel).2.2.1 key st st1 hDeps hc
          (by rw [hf]; rfl)
      refine ⟨hnone, rfl, ?_⟩
      intro g
      rw [resolve]
      simp only [hnone, hs]

/-- A consumer of `"k"`, so that the witness exercises eviction of a key that
another key derives from. -/
def fnJ : FetchFn :=
  { id := 22, arity := 1, run := fun m => .ok ((m.lookup "k").getD 0 + 1), dur := 4 }

/-- `"k"` has two dependency-free paths that both fail, and `"j"` depends on
`"k"`. -/
def eSpec : NStateSpec :=
  [("k", { paths := [{ dependencies := [], fn := fnF1 }, { dependencies := [], fn := fnF2 }] }),
   ("j", { paths := [{ dependencies := ["k"], fn := fnJ }] })]

def eSt0 : St := getInstance [] [] 0

def eSt' : St := (outSt (resolve eSpec 12 "k" eSt0)).getD default

theorem resolve_total_failure_evicts_w :
    eSt'.cache.lookup "k" = none
    ∧ fetchResult eSpec 10 "k" eSt0 = .settled (.error "e2") eSt'
    ∧ (∀ g, resolve eSpec (g + 1) "k" eSt' = fetchAndCache eSpec g "k" eSt') :=
  (resolve_total_failure_evicts eSpec).1 10 "k" eSt0 eSt' "e2"
    { paths := [{ dependencies := [], fn := fnF1 }, { dependencies := [], fn := fnF2 }] }
    (fun _ => False)
    (fun _ _ _ _ hS _ _ _ => hS.elim)
    (by
      intro p d hp hd
      simp only [List.mem_cons, List.not_mem_nil, or_false] at hp
      rcases hp with rfl | rfl <;> simp at hd)
    (fun h => h)
    rfl rfl (by decide)

/-! ## C5: seed values -/

/-- C5: `getInstance` builds a scope whose cache is exactly the seed mapping
(each seed key pre-resolved) over the shared stats table; resolving a seeded
key returns its seed value with the scope state untouched; any producer that
belongs only to the seeded key's paths keeps its stats entry unchanged (never
invoked, never cost-recorded) across every resolution in the scope; and the
seeded cache entry is never replaced — it survives every resolution with the
same value. -/
theorem seeded_scope_protected (spec : NStateSpec) :
    (∀ (vals : List (Key × Value)) (stats : StatsMap) (time : Nat),
      (getInstance vals stats time).cache = Orchestration vals
      ∧ (getInstance vals stats time).stats = stats) ∧
    (∀ (fuel : Nat) (k : Key) (v : Value) (st : St), st.cache.lookup k = some v →
      resolve spec (fuel + 1) k st = .settled (.ok v) st) ∧
    (∀ (i : Nat) (a : Key),
      (∀ k ns p, spec.lookup k = some ns → p ∈ ns.paths → p.fn.id = i → k = a) →
      ∀ (fuel : Nat) (key : Key) (st st' : St), (st.cache.lookup a).isSome →
        outSt (resolve spec fuel key st) = some st' →
        st'.stats.lookup i = st.stats.lookup i) ∧
    (∀ (fuel : Nat) (key k : Key) (v : Value) (st st' : St),
      st.cache.lookup k = some v → outSt (resolve spec fuel key st) = some st' →
      st'.cache.lookup k = some v) := by
  refine ⟨fun vals stats time => ⟨rfl, rfl⟩, ?_, ?_, ?_⟩
  · intro fuel k v st h
    exact resolve_cached h
  · intro i a hOnly fuel key st st' hA h
    exact (engine_statsFrame spec i a hOnly fuel).1 key st st' hA h
  · intro fuel key k v st st' hk h
    exact (engine_cacheLe spec fuel).1 key st st' h k v hk

def fnS : FetchFn := { id := 70, arity := 1, run := fun _ => .ok 1, dur := 6 }

def fnT : FetchFn :=
  { id := 71, arity := 1, run := fun m => .ok ((m.lookup "s").getD 0 + 1), dur := 2 }

def sSpec : NStateSpec :=
  [("s", { paths := [{ dependencies := [], fn := fnS }] }),
   ("t", { paths := [{ dependencies := ["s"], fn := fnT }] })]

def sSt0 : St := getInstance [("s", 42)] [] 0

def sSt1 : St := (outSt (resolve sSpec 20 "t" sSt0)).getD default

theorem seeded_scope_protected_w :
    resolve sSpec 20 "s" sSt0 = .settled (.ok 42) sSt0
    ∧ sSt1.stats.lookup 70 = sSt0.stats.lookup 70
    ∧ sSt1.cache.lookup "s" = some 42 := by
  refine ⟨?_, ?_, ?_⟩
  · exact (seeded_scope_protected sSpec).2.1 19 "s" 42 sSt0 (by decide)
  · refine (seeded_scope_protected sSpec).2.2.1 70 "s" ?_ 20 "t" sSt0 sSt1 (by decide) (by decide)
    intro k ns p hk hp hid
    have hmem := lookup_mem_assoc hk
    simp only [sSpec, List.mem_cons, List.not_mem_nil, or_false, Prod.mk.injEq] at hmem
    rcases hmem with ⟨rfl, rfl⟩ | ⟨rfl, rfl⟩
    · rfl
    · simp only [List.mem_singleton] at hp
      subst hp
      exact absurd hid (by decide)
  · exact (seeded_scope_protected sSpec).2.2.2 20 "t" "s" 42 sSt0 sSt1 (by decide) (by decide)

/-! ## C9: the worked example -/

def fnA : FetchFn := { id := 1, arity := 0, run := fun _ => .ok 1, dur := 5 }

def fnB : FetchFn :=
  { id := 2, arity := 1, run := fun m => .ok ((m.lookup "a").getD 0 + 1), dur := 3 }

/-- The raw spec `{ a: () => 1, b: [['a'], ({a}) => a + 1] }` exactly as the
claim writes it: the value of `b` is a two-element array whose first element
is the array `['a']` and whose second element is the bare function. -/
def exRawLit : List (Key × RawVal) :=
  [("a", .func fnA), ("b", .arr [.arr [.str "a"], .func fnB])]

/-- The same data source in the accepted single-path form documented for
dependent functions: `{ a: () => 1, b: ['a', ({a}) => a + 1] }`, where the
dependencies are listed inline before the function. -/
def exRawFixed : List (Key × RawVal) :=
  [("a", .func fnA), ("b", .arr [.str "a", .func fnB])]

def exSpec : NStateSpec :=
  match normalizeRawSpec exRawFixed with
  | .ok s => s
  | .error _ => []

def exSt0 : St := getInstance [] [] 0

def exSt1 : St := settledSt (resolve exSpec 20 "b" exSt0)

/-- C9 (counterexample): the spec `{ a: () => 1, b: [['a'], ({a}) => a + 1] }`
as literally written does NOT normalize: because the first element of the
array is itself an array, every element is normalized independently as a
dependent-function path, and the first element `['a']` ends in the string
`'a'` rather than a function, so construction throws the invalid-dependent-
function-specification error — normalization never succeeds and `scope.b()`
can never resolve. -/
theorem example_spec_literal_rejected :
    normalizeRawSpec exRawLit = .error invalidSpecMsg
    ∧ (normalizeRawSpec exRawLit).isOk = false := by
  refine ⟨rfl, rfl⟩

/-- C9 (amended): the literal spec `{ a: () => 1, b: [['a'], ({a}) => a + 1] }`
is rejected at construction with the invalid-dependent-function-specification
error (by the multi-path rule its element `['a']` must itself end in a
function); writing `b` in the accepted single-path dependent-function form
`['a', ({a}) => a + 1]`, normalization succeeds, `scope.b()` settles with 2,
and a later `scope.a()` on the same scope settles with 1 while leaving the
scope state identical — in particular the producer of `a` still has execution
count 1, so it was not re-invoked. -/
theorem example_spec_resolves :
    normalizeRawSpec exRawLit = .error invalidSpecMsg
    ∧ (normalizeRawSpec exRawFixed).isOk = true
    ∧ resolve exSpec 20 "b" exSt0 = .settled (.ok 2) exSt1
    ∧ resolve exSpec 20 "a" exSt1 = .settled (.ok 1) exSt1
    ∧ countOf exSt1.stats fnA.id = 1 := by
  refine ⟨rfl, by decide, by decide, by decide, by decide⟩
